import Mathlib

/-!
Verification development for the CrossIDE command-line build orchestrator
(`crosside_cli.py` and `ide_utils/`).  The Python source is shallowly
embedded: pure fragments become Lean functions on `List String` / `Nat`,
filesystem and process state is passed in as explicit oracle parameters
(`fs : String → Bool` for `os.path.exists`, exit codes as arguments), and
`os.name` is fixed to the POSIX/Linux case the tool targets.
-/

namespace Crosside

/-! ## String primitives

Python's `str.strip`, `str.startswith`, `in`, `str.endswith` and `<` are
embedded as structurally recursive functions over the underlying character
list (the Lean core versions use iterator loops the kernel cannot
evaluate).  Python compares strings lexicographically by code point. -/

/-- `str.strip()` (whitespace from both ends). -/
def py_trim (s : String) : String :=
  ⟨((s.data.dropWhile Char.isWhitespace).reverse.dropWhile Char.isWhitespace).reverse⟩

/-- `s.startswith(pre)`. -/
def py_startsWith (s pre : String) : Bool :=
  pre.data.isPrefixOf s.data

/-- `c in s` for a single character. -/
def py_contains_char (s : String) (c : Char) : Bool :=
  s.data.contains c

/-- `s.endswith(suffix)`. -/
def py_endsWith (s suffix : String) : Bool :=
  suffix.data.isSuffixOf s.data

/-- Code-point lexicographic comparison on character lists. -/
def py_chars_lt : List Char → List Char → Bool
  | [], [] => false
  | [], _ :: _ => true
  | _ :: _, [] => false
  | a :: as, b :: bs =>
    if a.toNat < b.toNat then true
    else if b.toNat < a.toNat then false
    else py_chars_lt as bs

/-- Python `s < t` on strings. -/
def py_str_lt (s t : String) : Bool :=
  py_chars_lt s.data t.data

/-! ## Shared helpers (crosside_cli.py) -/

/-- Embeds `append_unique` (crosside_cli.py:147-149): append `value` when it
is non-empty and not already present. -/
def append_unique (items : List String) (value : String) : List String :=
  if value ≠ "" ∧ value ∉ items then items ++ [value] else items

/-! ## Desktop mode filter (crosside_cli.py:160-205) -/

/-- Embeds the inner `filter_compile_flags` of `apply_desktop_mode_to_flags`
(crosside_cli.py:166-179): trim each flag, drop empties, drop the fixed
set (-DDEBUG, -DNDEBUG, -s), drop anything starting with -O or -g. -/
def filter_compile_flags (flags : List String) : List String :=
  flags.filterMap (fun flag =>
    let value := py_trim flag
    if value = "" then none
    else if value = "-DDEBUG" ∨ value = "-DNDEBUG" ∨ value = "-s" then none
    else if py_startsWith value "-O" then none
    else if py_startsWith value "-g" then none
    else some value)

/-- Embeds the inner `filter_link_flags` (crosside_cli.py:181-190). -/
def filter_link_flags (mode : String) (flags : List String) : List String :=
  flags.filterMap (fun flag =>
    let value := py_trim flag
    if value = "" then none
    else if (value = "-s" ∨ value = "-Wl,-s") ∧ mode = "debug" then none
    else some value)

def debug_mode_flags : List String := ["-O0", "-g3", "-DDEBUG", "-fno-omit-frame-pointer"]

def release_mode_flags : List String := ["-O2", "-DNDEBUG"]

/-- Embeds `apply_desktop_mode_to_flags` (crosside_cli.py:160-205): filter
all three lists, then extend the compile lists with the fixed per-mode set. -/
def apply_desktop_mode_to_flags (cc_args cpp_args ld_args : List String) (mode : String) :
    List String × List String × List String :=
  let cc := filter_compile_flags cc_args
  let cpp := filter_compile_flags cpp_args
  let ld := filter_link_flags mode ld_args
  if mode = "debug" then
    (cc ++ debug_mode_flags, cpp ++ debug_mode_flags, ld)
  else
    (cc ++ release_mode_flags, cpp ++ release_mode_flags, ld)

/-! ## Incremental build tracker (native_build.py:58-66, android_native_build.py:376-383)

The desktop path converts both modification times with `time.ctime` and
compares the resulting *strings* (`src_convert_time < obj_convert_time`),
while the Android path compares the numeric timestamps
(`src_modified_time <= obj_modified_time`).  We embed `time.ctime` for a
UTC clock; the weekday-name prefix of the string makes the comparison
non-chronological in any timezone. -/

def weekday_names : List String := ["Sun", "Mon", "Tue", "Wed", "Thu", "Fri", "Sat"]

def month_names : List String :=
  ["Jan", "Feb", "Mar", "Apr", "May", "Jun", "Jul", "Aug", "Sep", "Oct", "Nov", "Dec"]

/-- Civil date (year, month, day) from days since 1970-01-01
(standard days-from-civil inverse, all in `Nat`). -/
def civil_from_days (days : Nat) : Nat × Nat × Nat :=
  let z := days + 719468
  let era := z / 146097
  let doe := z % 146097
  let yoe := (doe - doe / 1460 + doe / 36524 - doe / 146096) / 365
  let y := yoe + era * 400
  let doy := doe - (365 * yoe + yoe / 4 - yoe / 100)
  let mp := (5 * doy + 2) / 153
  let d := doy - (153 * mp + 2) / 5 + 1
  let m := if mp < 10 then mp + 3 else mp - 9
  (if m ≤ 2 then y + 1 else y, m, d)

def pad2 (n : Nat) : String :=
  if n < 10 then "0" ++ toString n else toString n

/-- `time.ctime` for an epoch-seconds timestamp (UTC):
`"Www Mmm dd hh:mm:ss yyyy"` with a space-padded day of month. -/
def pyCtime (t : Nat) : String :=
  let days := t / 86400
  let rem := t % 86400
  let hh := rem / 3600
  let mi := rem % 3600 / 60
  let ss := rem % 60
  let wd := weekday_names.getD ((days + 4) % 7) ""
  let ymd := civil_from_days days
  let day := ymd.2.2
  let dayStr := if day < 10 then " " ++ toString day else toString day
  wd ++ " " ++ month_names.getD (ymd.2.1 - 1) "" ++ " " ++ dayStr ++ " " ++
    pad2 hh ++ ":" ++ pad2 mi ++ ":" ++ pad2 ss ++ " " ++ toString ymd.1

inductive BuildDecision
  | recompile
  | skip
deriving DecidableEq

/-- Embeds the per-source skip decision of `desktop_compile`
(native_build.py:58-66): skip iff not a full build, the object exists, and
`time.ctime(src_mtime) < time.ctime(obj_mtime)` as *strings*. -/
def desktop_unit_decision (full_build obj_exists : Bool) (src_mtime obj_mtime : Nat) :
    BuildDecision :=
  if full_build = false ∧ obj_exists = true ∧ py_str_lt (pyCtime src_mtime) (pyCtime obj_mtime) = true then
    BuildDecision.skip
  else
    BuildDecision.recompile

/-- Embeds the per-source skip decision of `android_compile`
(android_native_build.py:376-383): skip iff not a full build, the object
exists, and `src_modified_time <= obj_modified_time` numerically. -/
def android_unit_decision (full_build obj_exists : Bool) (src_mtime obj_mtime : Nat) :
    BuildDecision :=
  if full_build = false ∧ obj_exists = true ∧ src_mtime ≤ obj_mtime then
    BuildDecision.skip
  else
    BuildDecision.recompile

/-! ## Android ABI fan-out (crosside_cli.py:712-740)

`build_module_target` for target `android` loops over the ABI list; a
compile failure sets `ok = False` and `continue`s to the *next* ABI, a link
failure sets `ok = False` and the loop also proceeds.  Compile and link
results for each ABI are supplied as oracles. -/

inductive AbiPhase
  | compile
  | link
deriving DecidableEq

/-- Embeds the `target == "android"` branch of `build_module_target`
(crosside_cli.py:712-740).  Returns the final `ok` flag and the sequence of
tool invocations (ABI, phase) actually performed. -/
def build_module_target_android (abi_list : List Nat) (compile_ok link_ok : Nat → Bool) :
    Bool × List (Nat × AbiPhase) :=
  abi_list.foldl
    (fun acc abi =>
      let calls := acc.2 ++ [(abi, AbiPhase.compile)]
      if compile_ok abi then
        (acc.1 && link_ok abi, calls ++ [(abi, AbiPhase.link)])
      else
        (false, calls))
    (true, [])

/-! ## Android package-name sanitizer
(crosside_cli.py:806-821 `sanitize_android_package_name`,
android_pipeline.py:10-27 `_sanitize_android_package`; the two bodies are
identical).  Implemented on `List Char`; the regular expressions are
character filters. -/

def is_word_char (c : Char) : Bool :=
  (Char.ofNat 65 ≤ c && c ≤ Char.ofNat 90) ||
  (Char.ofNat 97 ≤ c && c ≤ Char.ofNat 122) ||
  (Char.ofNat 48 ≤ c && c ≤ Char.ofNat 57) ||
  c = Char.ofNat 95

def is_word_dot_char (c : Char) : Bool :=
  is_word_char c || c = Char.ofNat 46

/-- `re.sub(r"\.+", ".", value)`: collapse runs of dots. -/
def collapse_dots : List Char → List Char
  | [] => []
  | c :: rest =>
    let r := collapse_dots rest
    if c = Char.ofNat 46 ∧ r.head? = some (Char.ofNat 46) then r else c :: r

/-- `str.strip(".")`: drop leading and trailing dots. -/
def strip_dots (cs : List Char) : List Char :=
  ((cs.dropWhile (fun c => c = Char.ofNat 46)).reverse.dropWhile
    (fun c => c = Char.ofNat 46)).reverse

/-- `value.split(".")` on a character list. -/
def split_on_dot : List Char → List (List Char)
  | [] => [[]]
  | c :: rest =>
    let r := split_on_dot rest
    if c = Char.ofNat 46 then [] :: r
    else
      match r with
      | [] => [[c]]
      | h :: t => (c :: h) :: t

/-- The per-part cleanup loop of the sanitizer: re-filter to word
characters, drop the part if empty, prepend `p` when it starts with a
digit. -/
def clean_package_part (part : List Char) : Option (List Char) :=
  match part.filter is_word_char with
  | [] => none
  | h :: t => some (if h.isDigit then Char.ofNat 112 :: h :: t else h :: t)

def join_dots : List (List Char) → List Char
  | [] => []
  | [p] => p
  | p :: rest => p ++ Char.ofNat 46 :: join_dots rest

def android_package_fallback : String := "com.djokersoft.game"

/-- Embeds `sanitize_android_package_name` (crosside_cli.py:806-821):
strip, `/`→`.`, drop characters outside `[A-Za-z0-9_.]`, collapse and strip
dots, split on dots, clean each part, fall back when fewer than two parts
survive. -/
def sanitize_clean_parts (package_name : String) : List (List Char) :=
  let cs := (py_trim package_name).data
  let cs := cs.map (fun c => if c = Char.ofNat 47 then Char.ofNat 46 else c)
  let cs := cs.filter is_word_dot_char
  let cs := strip_dots (collapse_dots cs)
  let parts := (split_on_dot cs).filter (fun p => p ≠ [])
  parts.filterMap clean_package_part

def sanitize_android_package_name (package_name : String) : String :=
  let clean_parts := sanitize_clean_parts package_name
  if clean_parts.length < 2 then android_package_fallback
  else (join_dots clean_parts).asString

/-- Embeds `_sanitize_android_package` (android_pipeline.py:10-27), whose
body is identical to `sanitize_android_package_name`; the packaging
pipeline applies it to the requested package before the manifest, stop,
install and launch steps (android_pipeline.py:153). -/
def pipeline_sanitize_android_package (package_name : String) : String :=
  let clean_parts := sanitize_clean_parts package_name
  if clean_parts.length < 2 then android_package_fallback
  else (join_dots clean_parts).asString

/-- The shape claimed for every sanitized package name: either the fixed
fallback, or a dot-join of at least two segments, each a non-empty string
of word characters not starting with a digit. -/
def ValidAndroidPackage (r : String) : Prop :=
  r = android_package_fallback ∨
    ∃ parts : List (List Char),
      2 ≤ parts.length ∧
      r = (join_dots parts).asString ∧
      ∀ p ∈ parts, p ≠ [] ∧ (∀ c ∈ p, is_word_char c = true) ∧
        (∀ h t, p = h :: t → h.isDigit = false)

/-! ## Web shared-link normalization (native_build.py:355-385)

The non-static branch of `web_build` walks `ldargs` with an index:
a `-s` token with a successor consumes both tokens and emits
`-s<setting>` when the trimmed successor is non-empty; otherwise tokens of
trimmed length > 1 are kept.  Afterwards `-sASYNCIFY` and a fixed
`-sEXPORTED_RUNTIME_METHODS=[...]` list are appended unless a flag with
that prefix is already present. -/

def web_normalize_ld : List String → List String
  | [] => []
  | a :: rest =>
    let value := py_trim a
    if value = "-s" then
      match rest with
      | [] => [value]
      | b :: rest2 =>
        let setting := py_trim b
        if 0 < setting.length then ("-s" ++ setting) :: web_normalize_ld rest2
        else web_normalize_ld rest2
    else if 1 < value.length then value :: web_normalize_ld rest
    else web_normalize_ld rest

/-- Single-quote character (the Lean file spells the source's quoted
runtime-method names with an explicit code point). -/
def squo : String := (Char.ofNat 39).toString

/-- The exact `-sEXPORTED_RUNTIME_METHODS=[...]` literal appended by
`web_build` (native_build.py:383-385). -/
def exported_runtime_methods_flag : String :=
  "-sEXPORTED_RUNTIME_METHODS=[" ++ squo ++ "HEAP8" ++ squo ++ "," ++ squo ++ "HEAPU8" ++
    squo ++ "," ++ squo ++ "HEAP16" ++ squo ++ "," ++ squo ++ "HEAPU16" ++ squo ++ "," ++
    squo ++ "HEAP32" ++ squo ++ "," ++ squo ++ "HEAPU32" ++ squo ++ "," ++ squo ++
    "HEAPF32" ++ squo ++ "," ++ squo ++ "HEAPF64" ++ squo ++ "," ++ squo ++ "ccall" ++
    squo ++ "," ++ squo ++ "cwrap" ++ squo ++ "]"

/-- Embeds the link-argument preparation of the non-static web build
(native_build.py:355-385): normalize, then force-enable the two
capabilities unless already present. -/
def web_shared_link_args (ldargs : List String) : List String :=
  let normalized := web_normalize_ld ldargs
  let has_asyncify := normalized.any (fun a => py_startsWith a "-sASYNCIFY")
  let has_exported :=
    normalized.any (fun a => py_startsWith a "-sEXPORTED_RUNTIME_METHODS=")
  (normalized ++ (if has_asyncify then [] else ["-sASYNCIFY"])) ++
    (if has_exported then [] else [exported_runtime_methods_flag])

/-- A NAME=VALUE-shaped setting token: contains `=` and does not start
with a dash. -/
def is_setting_token (s : String) : Bool :=
  py_contains_char s (Char.ofNat 61) && !(py_startsWith s "-")

/-- No element `-s` is immediately followed by a NAME=VALUE setting
token. -/
def NoSplitSettingPair : List String → Prop
  | [] => True
  | [_] => True
  | a :: b :: rest =>
    (a = "-s" → is_setting_token b = false) ∧ NoSplitSettingPair (b :: rest)

/-- `-s` can occur only as the final element. -/
def SLastOnly : List String → Prop
  | [] => True
  | a :: rest => (rest = [] ∨ a ≠ "-s") ∧ SLastOnly rest

/-! ## Module descriptors (crosside_cli.py:84-133)

`PlatformBlock.include` is renamed `include_dirs` (`include` is a Lean
keyword).  `directory` is a POSIX path string; `pathlib`'s `/` operator is
string concatenation with a separator.  The registry is the
name-to-descriptor mapping consulted with `dict.get`. -/

structure PlatformBlock where
  src : List String
  include_dirs : List String
  cpp_args : List String
  cc_args : List String
  ld_args : List String
  template : String
deriving DecidableEq

structure ModuleSpec where
  name : String
  directory : String
  static : Bool
  depends : List String
  system : List String
  main_src : List String
  main_include : List String
  main_cpp_args : List String
  main_cc_args : List String
  main_ld_args : List String
  desktop : PlatformBlock
  android : PlatformBlock
  web : PlatformBlock
deriving DecidableEq

abbrev Registry := List (String × ModuleSpec)

/-- `all_modules.get(name)`. -/
def lookupModule (reg : Registry) (name : String) : Option ModuleSpec :=
  List.lookup name reg

def regKeys (reg : Registry) : List String :=
  reg.map Prod.fst

/-- `Path` joining on the POSIX separator. -/
def path_join (p q : String) : String :=
  p ++ "/" ++ q

/-- Embeds `module_platform_block` (crosside_cli.py:467-472). -/
def module_platform_block (m : ModuleSpec) (target : String) : PlatformBlock :=
  if target = "desktop" then m.desktop
  else if target = "android" then m.android
  else m.web

/-- Embeds `include_suffix_for_target` (crosside_cli.py:483-488) for a
POSIX host (`os.name != "nt"`). -/
def include_suffix_for_target (target : String) : String :=
  if target = "desktop" then "linux"
  else if target = "android" then "android"
  else "web"

/-- Embeds `library_dir_for_module` (crosside_cli.py:491-497), POSIX host. -/
def library_dir_for_module (m : ModuleSpec) (target : String) (abi : Nat) : String :=
  if target = "desktop" then path_join m.directory "Linux"
  else if target = "web" then path_join m.directory "Web"
  else path_join (path_join m.directory "Android")
    (if abi = 1 then "arm64-v8a" else "armeabi-v7a")

/-- Embeds `library_file_for_module` (crosside_cli.py:500-502). -/
def library_file_for_module (m : ModuleSpec) (target : String) (abi : Nat) : String :=
  path_join (library_dir_for_module m target abi)
    ("lib" ++ m.name ++ (if m.static = true ∨ target = "web" then ".a" else ".so"))

/-! ## Flag composition (crosside_cli.py:547-633) -/

/-- The `include_candidates` list built by `add_module_include_flags`
(crosside_cli.py:556-562). -/
def include_candidates (m : ModuleSpec) (b : PlatformBlock) (target : String) :
    List String :=
  let suffix := include_suffix_for_target target
  [path_join m.directory "src", path_join m.directory "include",
   path_join (path_join m.directory "include") suffix] ++
    m.main_include.map (path_join m.directory) ++
    b.include_dirs.map (path_join m.directory)

/-- Embeds `add_module_include_flags` (crosside_cli.py:547-567): append a
`-I` flag for every candidate to both compile-flag lists via
`append_unique`. -/
def add_module_include_flags (m : ModuleSpec) (b : PlatformBlock) (target : String)
    (cc_args cpp_args : List String) : List String × List String :=
  (include_candidates m b target).foldl
    (fun acc p => (append_unique acc.1 ("-I" ++ p), append_unique acc.2 ("-I" ++ p)))
    (cc_args, cpp_args)

/-- Embeds `add_module_link_flags` (crosside_cli.py:570-589): `-L` via
`append_unique`, but `-l<name>` (emitted only when the library file
exists, per the `fs` oracle) and the module's LD flag lists via plain
`append`. -/
def add_module_link_flags (m : ModuleSpec) (b : PlatformBlock) (target : String)
    (abi : Nat) (fs : String → Bool) (ld_args : List String) : List String :=
  let ld := append_unique ld_args ("-L" ++ library_dir_for_module m target abi)
  let ld := if fs (library_file_for_module m target abi) then ld ++ ["-l" ++ m.name] else ld
  let ld := ld ++ m.main_ld_args.filter (fun f => f ≠ "")
  ld ++ b.ld_args.filter (fun f => f ≠ "")

/-- Embeds `collect_module_build_flags` (crosside_cli.py:592-633): own
include flags, own common and platform compile flags (all via
`append_unique`), then per dependency its include and link flags, then the
module's own LD flags via `append_unique`. -/
def collect_module_build_flags (m : ModuleSpec) (target : String) (abi : Nat)
    (all_modules : Registry) (fs : String → Bool) :
    List String × List String × List String :=
  let block := module_platform_block m target
  let ccp := add_module_include_flags m block target [] []
  let cc := m.main_cc_args.foldl append_unique ccp.1
  let cc := block.cc_args.foldl append_unique cc
  let cpp := m.main_cpp_args.foldl append_unique ccp.2
  let cpp := block.cpp_args.foldl append_unique cpp
  let st := m.depends.foldl
    (fun (st : List String × List String × List String) dep_name =>
      let name := py_trim dep_name
      if name = "" ∨ name = m.name then st
      else
        match lookupModule all_modules name with
        | none => st
        | some dep =>
          let dep_block := module_platform_block dep target
          let ccp2 := add_module_include_flags dep dep_block target st.1 st.2.1
          (ccp2.1, ccp2.2, add_module_link_flags dep dep_block target abi fs st.2.2))
    (cc, cpp, ([] : List String))
  let ld := m.main_ld_args.foldl append_unique st.2.2
  let ld := block.ld_args.foldl append_unique ld
  (st.1, st.2.1, ld)

def empty_platform_block : PlatformBlock :=
  { src := [], include_dirs := [], cpp_args := [], cc_args := [], ld_args := [],
    template := "" }

/-- A dependency module whose LD flag list repeats one flag. -/
def specD : ModuleSpec :=
  { name := "D", directory := "/d", static := false, depends := [], system := [],
    main_src := [], main_include := [], main_cpp_args := [], main_cc_args := [],
    main_ld_args := ["-lX", "-lX"], desktop := empty_platform_block,
    android := empty_platform_block, web := empty_platform_block }

/-- A module depending on `D`. -/
def specM : ModuleSpec :=
  { name := "M", directory := "/m", static := false, depends := ["D"], system := [],
    main_src := [], main_include := [], main_cpp_args := [], main_cc_args := [],
    main_ld_args := [], desktop := empty_platform_block,
    android := empty_platform_block, web := empty_platform_block }

def regMD : Registry := [("M", specM), ("D", specD)]

/-! ## Dependency graph resolver (crosside_cli.py:505-544)

`topological_modules` performs a depth-first post-order traversal with a
`visited` set, an active-recursion `stack` set and an `order` list.  In
the source the stack set is mutated (`stack.add(name)` before the
dependency loop, `stack.remove(name)` after), so a call always restores
the stack it received; the embedding threads the stack as a read-only
parameter that grows on recursion.  The recursion depth is bounded by the
number of registry keys not yet on the stack, so the embedding carries a
structural fuel parameter (one unit per nesting level) initialised above
that bound; the fuel-exhausted branch is unreachable from
`topological_modules` (proved by the lemmas below holding for any
sufficient fuel). -/

/-- The dependency names actually visited by the loop body
(crosside_cli.py:525-529): trimmed, skipping empties and self-edges. -/
def cleanDepsOf (m : ModuleSpec) (name : String) : List String :=
  (m.depends.map py_trim).filter (fun d => ¬(d = "" ∨ d = name))

structure VisitState where
  visited : List String
  order : List String
deriving DecidableEq

/-- `visited.add(name)` followed by `order.append(name)`
(crosside_cli.py:531-532). -/
def pushModule (n : String) (st : VisitState) : VisitState :=
  { visited := n :: st.visited, order := st.order ++ [n] }

/-- Number of registry keys not on the active stack (the recursion-depth
bound). -/
def freeKeyCount (reg : Registry) (stack : List String) : Nat :=
  ((regKeys reg).filter (fun k => decide (k ∉ stack))).length

/-- The traversal: visit each name of `names` in order with the same
active `stack`, threading (visited, order).  A visit returns immediately
when the name is already visited, on the stack (cycle warning), or not in
the registry (unknown-dependency warning); otherwise it recurses into the
cleaned dependency list with the name pushed on the stack and then marks
the name visited and appends it to the order. -/
def visitManyF (reg : Registry) : Nat → List String → List String → VisitState → VisitState
  | 0, _, _, st => st
  | fuel + 1, stack, names, st =>
    names.foldl
      (fun acc n =>
        if n ∈ acc.visited then acc
        else if n ∈ stack then acc
        else
          match lookupModule reg n with
          | none => acc
          | some m => pushModule n (visitManyF reg fuel (n :: stack) (cleanDepsOf m n) acc))
      st

/-- Embeds `topological_modules` (crosside_cli.py:505-535). -/
def topological_modules (module_name : String) (all_modules : Registry) : List String :=
  (visitManyF all_modules (all_modules.length + 1) [] [module_name]
    { visited := [], order := [] }).order

/-- Embeds `closure_for_modules` (crosside_cli.py:538-544). -/
def closure_for_modules (module_names : List String) (all_modules : Registry) :
    List String :=
  module_names.foldl
    (fun ordered name =>
      (topological_modules name all_modules).foldl
        (fun ordered item => if item ∈ ordered then ordered else ordered ++ [item])
        ordered)
    []

/-- A resolvable `depends` edge: the target is a registry module listed in
the (trimmed, non-self) dependency list of the source module. -/
def edgeR (reg : Registry) (a b : String) : Prop :=
  b ∈ regKeys reg ∧ ∃ m, lookupModule reg a = some m ∧ b ∈ cleanDepsOf m a

/-- Reachability from `a` through resolvable `depends` edges (reflexive
for registry modules). -/
inductive ReachK (reg : Registry) : String → String → Prop
  | refl (a : String) (h : a ∈ regKeys reg) : ReachK reg a a
  | tail {a b c : String} (h : ReachK reg a b) (e : edgeR reg b c) : ReachK reg a c

/-- The visited set and the order list hold the same modules, without
duplicates. -/
def GoodState (st : VisitState) : Prop :=
  st.order.Nodup ∧ ∀ x, x ∈ st.visited ↔ x ∈ st.order

/-- Every edge out of a visited module leads to a visited or on-stack
module. -/
def InvBlack (reg : Registry) (st : VisitState) (stack : List String) : Prop :=
  ∀ v ∈ st.visited, ∀ x, edgeR reg v x → x ∈ st.visited ∨ x ∈ stack

/-- `d` occurs strictly before `m` in `l`. -/
def OrderSplit (l : List String) (d m : String) : Prop :=
  ∃ p q, l = p ++ q ∧ d ∈ p ∧ m ∈ q

/-- The dependency-ordering invariant: a module in the order comes after
each of its resolvable dependencies that is in the order, except
dependencies from which the module is itself reachable (cycles). -/
def DepOrd (reg : Registry) (st : VisitState) : Prop :=
  ∀ m ∈ st.order, ∀ d, edgeR reg m d → ¬ ReachK reg d m → d ∈ st.order →
    OrderSplit st.order d m

/-- Acyclic two-module chain: `A` depends on `B`. -/
def specA_chain : ModuleSpec :=
  { name := "A", directory := "/a", static := false, depends := ["B"], system := [],
    main_src := [], main_include := [], main_cpp_args := [], main_cc_args := [],
    main_ld_args := [], desktop := empty_platform_block,
    android := empty_platform_block, web := empty_platform_block }

def specB_chain : ModuleSpec :=
  { name := "B", directory := "/b", static := false, depends := [], system := [],
    main_src := [], main_include := [], main_cpp_args := [], main_cc_args := [],
    main_ld_args := [], desktop := empty_platform_block,
    android := empty_platform_block, web := empty_platform_block }

def regChain : Registry := [("A", specA_chain), ("B", specB_chain)]

/-- Two-module dependency cycle: `A` depends on `B`, `B` depends on `A`. -/
def specA_cyc : ModuleSpec :=
  { name := "A", directory := "/a", static := false, depends := ["B"], system := [],
    main_src := [], main_include := [], main_cpp_args := [], main_cc_args := [],
    main_ld_args := [], desktop := empty_platform_block,
    android := empty_platform_block, web := empty_platform_block }

def specB_cyc : ModuleSpec :=
  { name := "B", directory := "/b", static := false, depends := ["A"], system := [],
    main_src := [], main_include := [], main_cpp_args := [], main_cc_args := [],
    main_ld_args := [], desktop := empty_platform_block,
    android := empty_platform_block, web := empty_platform_block }

def regAB : Registry := [("A", specA_cyc), ("B", specB_cyc)]

/-! ## Android manifest synthesis (android_pipeline.py:102-108, 198-239, 30-83)

`re.search` with the patterns used by the pipeline — a literal marker
followed by a `([^"]+)` capture and a closing quote — is embedded as a
left-to-right scan over the character list.  The result is the text
before and including the marker, the capture, and the rest starting at
the closing quote, which is exactly what the icon patch reassembles. -/

/-- Scan for the first position where `marker` is followed by a capture of
non-quote characters accepted by `valid` and a closing quote; `pre`
accumulates the scanned prefix. -/
def scan_capture_aux (marker : List Char) (valid : List Char → Bool) :
    List Char → List Char → Option (List Char × List Char × List Char)
  | _, [] => none
  | pre, c :: cs =>
    if marker.isPrefixOf (c :: cs) then
      let rest := (c :: cs).drop marker.length
      let cap := rest.takeWhile (fun ch => ch ≠ Char.ofNat 34)
      if valid cap ∧ (rest.drop cap.length).head? = some (Char.ofNat 34) then
        some (pre ++ marker, cap, rest.drop cap.length)
      else
        scan_capture_aux marker valid (pre ++ [c]) cs
    else
      scan_capture_aux marker valid (pre ++ [c]) cs

def scan_capture (marker : String) (valid : List Char → Bool) (s : List Char) :
    Option (List Char × List Char × List Char) :=
  scan_capture_aux marker.data valid [] s

/-- Scan for `m1`, then from there for an `m2`-anchored capture (the
non-greedy `[\s\S]*?` gap of the lib-name pattern); on capture failure
resume scanning for `m1` at the next position. -/
def scan_two_aux (m1 : List Char) (m2 : String) (valid : List Char → Bool) :
    List Char → List Char → Option (List Char × List Char × List Char)
  | _, [] => none
  | pre, c :: cs =>
    if m1.isPrefixOf (c :: cs) then
      match scan_capture_aux m2.data valid (pre ++ m1) ((c :: cs).drop m1.length) with
      | some r => some r
      | none => scan_two_aux m1 m2 valid (pre ++ [c]) cs
    else
      scan_two_aux m1 m2 valid (pre ++ [c]) cs

/-- `([^"]+)`: at least one character. -/
def nonempty_capture (cap : List Char) : Bool :=
  !cap.isEmpty

/-- `(@[^"]+)`: an `@` followed by at least one more character. -/
def icon_capture_valid : List Char → Bool
  | [] => false
  | c :: rest => c == Char.ofNat 64 && !rest.isEmpty

/-- `re.search(r'package="([^"]+)"', ...)` group 1. -/
def manifest_package (s : String) : Option String :=
  (scan_capture "package=\"" nonempty_capture s.data).map (fun r => ⟨r.2.1⟩)

/-- `re.search(r'<activity android:name="([^"]+)"', ...)` group 1. -/
def manifest_activity (s : String) : Option String :=
  (scan_capture "<activity android:name=\"" nonempty_capture s.data).map (fun r => ⟨r.2.1⟩)

/-- The `android.app.lib_name` meta-data value pattern group 1. -/
def manifest_lib (s : String) : Option String :=
  (scan_two_aux "android:name=\"android.app.lib_name\"".data "android:value=\""
    nonempty_capture [] s.data).map (fun r => ⟨r.2.1⟩)

/-- The identity test of android_pipeline.py:206-222: existing package,
activity and native-library name (empty when the pattern is absent) all
equal the requested ones. -/
def manifest_identity_matches (content pack act lib : String) : Bool :=
  ((manifest_package content).getD "" == pack) &&
  ((manifest_activity content).getD "" == act) &&
  ((manifest_lib content).getD "" == lib)

/-- `str.replace` (all, non-overlapping, left to right) with a fuel bound
of the subject length. -/
def replace_all_chars (pat repl : List Char) : Nat → List Char → List Char
  | _, [] => []
  | 0, s => s
  | fuel + 1, c :: cs =>
    if pat.isPrefixOf (c :: cs) then
      repl ++ replace_all_chars pat repl fuel (cs.drop (pat.length - 1))
    else
      c :: replace_all_chars pat repl fuel cs

def py_replace (s pat repl : String) : String :=
  if pat.data = [] then s
  else ⟨replace_all_chars pat.data repl.data s.data.length s.data⟩

/-- Embeds `build_native_manifest` (android_pipeline.py:102-108). -/
def build_native_manifest (template pack label act lib : String) : String :=
  py_replace (py_replace (py_replace (py_replace template
    "@apppkg@" pack) "@applbl@" label) "@appact@" act) "@appLIBNAME@" lib

def icon_fallback_ref : String := "@android:drawable/sym_def_app_icon"

/-- Embeds `_has_android_resource` (android_pipeline.py:30-57); the
resource-directory walk is the oracle `res_lookup type name`. -/
def has_android_resource (res_is_dir : Bool) (res_lookup : String → String → Bool)
    (ref : String) : Bool :=
  if !(py_startsWith ref "@") then true
  else if py_startsWith ref "@android:" then true
  else
    let value : String := ⟨ref.data.drop 1⟩
    if !(py_contains_char value (Char.ofNat 47)) then false
    else
      let res_type : String := ⟨value.data.takeWhile (fun c => c ≠ Char.ofNat 47)⟩
      let res_name : String := ⟨value.data.drop (res_type.data.length + 1)⟩
      if res_type = "" ∨ res_name = "" then false
      else if !res_is_dir then false
      else res_lookup res_type res_name

/-- Embeds `_ensure_manifest_icon_fallback` (android_pipeline.py:60-83):
patch the captured `android:icon` reference to the system fallback when
the resource is missing. -/
def ensure_manifest_icon_fallback (res_is_dir : Bool)
    (res_lookup : String → String → Bool) (content : String) : String :=
  match scan_capture "android:icon=\"" icon_capture_valid content.data with
  | none => content
  | some r =>
    if has_android_resource res_is_dir res_lookup ⟨r.2.1⟩ then content
    else ⟨r.1 ++ icon_fallback_ref.data ++ r.2.2⟩

/-- The manifest decision of android_pipeline.py:198-235: keep an
existing manifest whose identity matches, otherwise write the filled
template. -/
def manifest_after_identity_check (tmpl pack label act lib : String)
    (existing : Option String) : String :=
  match existing with
  | none => build_native_manifest tmpl pack label act lib
  | some content =>
    if manifest_identity_matches content pack act lib then content
    else build_native_manifest tmpl pack label act lib

/-- The full manifest step of one packaging run (identity check then the
unconditional icon-fallback pass, android_pipeline.py:198-239). -/
def manifest_step (tmpl pack label act lib : String) (existing : Option String)
    (res_is_dir : Bool) (res_lookup : String → String → Bool) : String :=
  ensure_manifest_icon_fallback res_is_dir res_lookup
    (manifest_after_identity_check tmpl pack label act lib existing)

/-- The icon reference of the manifest (if any) resolves: absent, a
system reference, or present in the resource tree. -/
def manifest_icon_safe (res_is_dir : Bool) (res_lookup : String → String → Bool)
    (content : String) : Bool :=
  match scan_capture "android:icon=\"" icon_capture_valid content.data with
  | none => true
  | some r => has_android_resource res_is_dir res_lookup ⟨r.2.1⟩

/-- An existing manifest whose identity matches the request but whose
icon points at a project resource. -/
def demo_manifest : String :=
  "<manifest package=\"com.demo.app\"><application android:icon=\"@mipmap/ic_launcher\"><activity android:name=\"acts.Main\"><meta-data android:name=\"android.app.lib_name\" android:value=\"game\"/></activity></application></manifest>"

/-- The same manifest after a first packaging run already patched the
icon to the system fallback. -/
def demo_manifest_sys_icon : String :=
  "<manifest package=\"com.demo.app\"><application android:icon=\"@android:drawable/sym_def_app_icon\"><activity android:name=\"acts.Main\"><meta-data android:name=\"android.app.lib_name\" android:value=\"game\"/></activity></application></manifest>"

/-! ## Android packaging assembly (android_pipeline.py:353-463)

The dex-translation decision and the archive-append sequence after the
`aapt` base package, with filesystem contents and tool exit codes as
oracles. -/

inductive DexTool
  | d8
  | dx
deriving DecidableEq

/-- Embeds android_pipeline.py:369-394: skip translation when there are
no class files; otherwise prefer d8 when available and fall back to dx on
a non-zero d8 exit. -/
def dex_translation (class_files : List String) (dx8_path : Option String)
    (fs : String → Bool) (d8_exit dx_exit : Int) : List DexTool × Bool :=
  if class_files.isEmpty then ([], true)
  else
    let d8_avail :=
      match dx8_path with
      | none => false
      | some p => !(p == "") && fs p
    if d8_avail then
      if d8_exit = 0 then ([DexTool.d8], true)
      else if dx_exit = 0 then ([DexTool.d8, DexTool.dx], true)
      else ([DexTool.d8, DexTool.dx], false)
    else if dx_exit = 0 then ([DexTool.dx], true)
    else ([DexTool.dx], false)

/-- The fixed asset mounts (android_pipeline.py:438-444). -/
def asset_roots : List (String × String) :=
  [("scripts", "assets/scripts"), ("assets", "assets/assets"),
   ("resources", "assets/resources"), ("data", "assets/data"), ("media", "assets/media")]

/-- `os.path.basename` for POSIX paths. -/
def base_name (s : String) : String :=
  ⟨(s.data.reverse.takeWhile (fun c => c ≠ Char.ofNat 47)).reverse⟩

structure ApkAssembly where
  translator_calls : List DexTool
  dex_failed : Bool
  entries : List String
deriving DecidableEq

/-- Embeds android_pipeline.py:353-463: purge stale `.dex` files, run the
translation decision, then append to the `aapt` base package the per-ABI
native libraries that exist, the asset trees under their fixed mounts,
and every `.dex` found in the dex directory. -/
def android_package_assembly (app_name : String) (class_files : List String)
    (dx8_path : Option String) (fs : String → Bool) (d8_exit dx_exit : Int)
    (dex_dir_before translated base_entries : List String)
    (lib32_exists lib64_exists : Bool) (asset_tree : String → List String) :
    ApkAssembly :=
  let cleaned := dex_dir_before.filter (fun f => !(py_endsWith f ".dex"))
  let tr := dex_translation class_files dx8_path fs d8_exit dx_exit
  let dex_dir := cleaned ++ (if class_files.isEmpty then [] else if tr.2 then translated else [])
  let lib_entries :=
    (if lib32_exists then ["lib/armeabi-v7a/lib" ++ app_name ++ ".so"] else []) ++
    (if lib64_exists then ["lib/arm64-v8a/lib" ++ app_name ++ ".so"] else [])
  let asset_entries :=
    asset_roots.flatMap (fun hm => (asset_tree hm.1).map (fun rel => hm.2 ++ "/" ++ rel))
  let dex_found := dex_dir.filter (fun f => py_endsWith f ".dex")
  { translator_calls := tr.1,
    dex_failed := !tr.2,
    entries := base_entries ++ lib_entries ++ asset_entries ++ dex_found.map base_name }

/-! # Theorems -/

/-! ## Helper lemmas -/

theorem mem_filter_compile_flags {x : String} {l : List String}
    (h : x ∈ filter_compile_flags l) :
    x ≠ "-DDEBUG" ∧ x ≠ "-DNDEBUG" ∧ x ≠ "-s" ∧
      py_startsWith x "-O" = false ∧ py_startsWith x "-g" = false := by
  simp only [filter_compile_flags, List.mem_filterMap] at h
  obtain ⟨a, -, ha⟩ := h
  by_cases h1 : py_trim a = ""
  · rw [if_pos h1] at ha; cases ha
  rw [if_neg h1] at ha
  by_cases h2 : py_trim a = "-DDEBUG" ∨ py_trim a = "-DNDEBUG" ∨ py_trim a = "-s"
  · rw [if_pos h2] at ha; cases ha
  rw [if_neg h2] at ha
  by_cases h3 : py_startsWith (py_trim a) "-O" = true
  · rw [if_pos h3] at ha; cases ha
  rw [if_neg h3] at ha
  by_cases h4 : py_startsWith (py_trim a) "-g" = true
  · rw [if_pos h4] at ha; cases ha
  rw [if_neg h4] at ha
  obtain rfl : py_trim a = x := Option.some.inj ha
  push_neg at h2
  exact ⟨h2.1, h2.2.1, h2.2.2, Bool.not_eq_true _ |>.mp h3, Bool.not_eq_true _ |>.mp h4⟩

theorem clean_package_part_spec {p q : List Char} (h : clean_package_part p = some q) :
    q ≠ [] ∧ (∀ c ∈ q, is_word_char c = true) ∧ ∀ a t, q = a :: t → a.isDigit = false := by
  unfold clean_package_part at h
  cases hf : p.filter is_word_char with
  | nil => rw [hf] at h; exact absurd h (by simp)
  | cons b t =>
    rw [hf] at h
    obtain rfl : _ = q := Option.some.inj h
    have hmem : ∀ c ∈ b :: t, is_word_char c = true := by
      intro c hc
      exact (List.mem_filter.mp (hf ▸ hc)).2
    cases hd : b.isDigit with
    | true =>
      simp only [hd, if_true]
      refine ⟨by simp, ?_, ?_⟩
      · intro c hc
        rcases List.mem_cons.mp hc with rfl | hc
        · decide
        · exact hmem c hc
      · intro a t' ht'
        obtain rfl : Char.ofNat 112 = a := (List.cons.injEq _ _ _ _ ▸ ht').1
        decide
    | false =>
      rw [if_neg (by simp [hd])]
      refine ⟨by simp, hmem, ?_⟩
      intro a t' ht'
      obtain rfl : b = a := (List.cons.injEq _ _ _ _ ▸ ht').1
      exact hd

/-! ## C3: incremental build tracker -/

/-- C3: the desktop incremental tracker compares `time.ctime` *strings*
lexicographically instead of the numeric timestamps.  With the object
built at Mon Jan 1 2024 00:00:00 UTC and the source touched at
Fri Jan 5 2024 00:00:00 UTC, the source is strictly newer, yet the desktop
decision is `skip` (the string "Fri ..." sorts before "Mon ..."); the
Android path at the same timestamps recompiles.  Swapping the two
timestamps (source older) makes the desktop path recompile where the claim
requires `skip`. -/
theorem desktop_staleness_compares_ctime_strings :
    1704067200 < 1704412800 ∧
    desktop_unit_decision false true 1704412800 1704067200 = BuildDecision.skip ∧
    android_unit_decision false true 1704412800 1704067200 = BuildDecision.recompile ∧
    desktop_unit_decision false true 1704067200 1704412800 = BuildDecision.recompile ∧
    android_unit_decision false true 1704067200 1704412800 = BuildDecision.skip := by
  exact ⟨by norm_num, by decide, by decide, by decide, by decide⟩

/-! ## C4: desktop mode filtering -/

/-- C4 counterexample: release mode does not strip the debug-only token
`-fno-omit-frame-pointer`; a descriptor that mixed it in keeps it in the
release flag list. -/
theorem release_mode_keeps_frame_pointer_flag :
    "-fno-omit-frame-pointer" ∈
      (apply_desktop_mode_to_flags ["-fno-omit-frame-pointer"] [] [] "release").1 := by
  decide

/-- C4 (amended): debug compile flags never contain the release-only
tokens -O2 / -DNDEBUG, and release compile flags never contain -O0, -g3 or
-DDEBUG; `-fno-omit-frame-pointer` is the one debug-set token release mode
does not strip. -/
theorem apply_desktop_mode_strips_opposite_mode_flags (cc cpp ld : List String) :
    (∀ x ∈ release_mode_flags,
      x ∉ (apply_desktop_mode_to_flags cc cpp ld "debug").1 ∧
      x ∉ (apply_desktop_mode_to_flags cc cpp ld "debug").2.1) ∧
    (∀ x ∈ (["-O0", "-g3", "-DDEBUG"] : List String),
      x ∉ (apply_desktop_mode_to_flags cc cpp ld "release").1 ∧
      x ∉ (apply_desktop_mode_to_flags cc cpp ld "release").2.1) := by
  have hdbg : apply_desktop_mode_to_flags cc cpp ld "debug" =
      (filter_compile_flags cc ++ debug_mode_flags,
       filter_compile_flags cpp ++ debug_mode_flags,
       filter_link_flags "debug" ld) := by
    simp only [apply_desktop_mode_to_flags]
    rw [if_pos trivial]
  have hrel : apply_desktop_mode_to_flags cc cpp ld "release" =
      (filter_compile_flags cc ++ release_mode_flags,
       filter_compile_flags cpp ++ release_mode_flags,
       filter_link_flags "release" ld) := by
    simp only [apply_desktop_mode_to_flags]
    rw [if_neg (by decide)]
  have key : ∀ (x : String) (l : List String) (fixed : List String),
      (x = "-DDEBUG" ∨ x = "-DNDEBUG" ∨ py_startsWith x "-O" = true ∨
        py_startsWith x "-g" = true) →
      x ∉ fixed → x ∉ filter_compile_flags l ++ fixed := by
    intro x l fixed hx hfix h
    rcases List.mem_append.mp h with h | h
    · have hspec := mem_filter_compile_flags h
      rcases hx with rfl | rfl | hx | hx
      · exact hspec.1 rfl
      · exact hspec.2.1 rfl
      · rw [hspec.2.2.2.1] at hx; cases hx
      · rw [hspec.2.2.2.2] at hx; cases hx
    · exact hfix h
  constructor
  · intro x hx
    rcases (by simpa [release_mode_flags] using hx : x = "-O2" ∨ x = "-DNDEBUG") with rfl | rfl
    · rw [hdbg]
      exact ⟨key _ _ _ (Or.inr (Or.inr (Or.inl (by decide)))) (by decide),
             key _ _ _ (Or.inr (Or.inr (Or.inl (by decide)))) (by decide)⟩
    · rw [hdbg]
      exact ⟨key _ _ _ (Or.inr (Or.inl rfl)) (by decide),
             key _ _ _ (Or.inr (Or.inl rfl)) (by decide)⟩
  · intro x hx
    rcases (by simpa using hx : x = "-O0" ∨ x = "-g3" ∨ x = "-DDEBUG") with rfl | rfl | rfl
    · rw [hrel]
      exact ⟨key _ _ _ (Or.inr (Or.inr (Or.inl (by decide)))) (by decide),
             key _ _ _ (Or.inr (Or.inr (Or.inl (by decide)))) (by decide)⟩
    · rw [hrel]
      exact ⟨key _ _ _ (Or.inr (Or.inr (Or.inr (by decide)))) (by decide),
             key _ _ _ (Or.inr (Or.inr (Or.inr (by decide)))) (by decide)⟩
    · rw [hrel]
      exact ⟨key _ _ _ (Or.inl rfl) (by decide),
             key _ _ _ (Or.inl rfl) (by decide)⟩

/-- C4 witness: the guarantee at a concrete mixed flag list. -/
theorem apply_desktop_mode_strips_opposite_mode_flags_witness :
    "-O2" ∉ (apply_desktop_mode_to_flags ["-O2", "-DDEBUG"] [] [] "debug").1 :=
  ((apply_desktop_mode_strips_opposite_mode_flags ["-O2", "-DDEBUG"] [] []).1
    "-O2" (by decide)).1

/-! ## C7: ABI fan-out error handling -/

theorem build_module_target_android_foldl (c l : Nat → Bool) (abis : List Nat)
    (acc : Bool × List (Nat × AbiPhase)) :
    abis.foldl
      (fun acc abi =>
        let calls := acc.2 ++ [(abi, AbiPhase.compile)]
        if c abi then
          (acc.1 && l abi, calls ++ [(abi, AbiPhase.link)])
        else
          (false, calls))
      acc =
    (acc.1 && abis.all (fun a => c a && l a),
     acc.2 ++ abis.flatMap
       (fun a => (a, AbiPhase.compile) :: if c a then [(a, AbiPhase.link)] else [])) := by
  induction abis generalizing acc with
  | nil => simp
  | cons a rest ih =>
    rw [List.foldl_cons, ih]
    cases hc : c a with
    | true => simp [hc, Bool.and_assoc]
    | false => simp [hc]

/-- C7 counterexample: with ABIs `[0, 1]`, a compile failure for ABI 0
(`compile_ok 0 = false`) still lets ABI 1 be compiled *and* linked
afterwards; the per-ABI loop body executes `continue`, not a halt. -/
theorem android_abi_failure_does_not_halt_module :
    (build_module_target_android [0, 1] (fun a => a == 1) (fun _ => true)).1 = false ∧
    (1, AbiPhase.compile) ∈
      (build_module_target_android [0, 1] (fun a => a == 1) (fun _ => true)).2 ∧
    (1, AbiPhase.link) ∈
      (build_module_target_android [0, 1] (fun a => a == 1) (fun _ => true)).2 := by
  exact ⟨by decide, by decide, by decide⟩

/-- C7 (amended): every requested ABI is compiled regardless of earlier
failures, each ABI is linked exactly when its own compile succeeded, and
the module/target build reports failure iff any ABI failed to compile or
link. -/
theorem build_module_target_android_spec (abis : List Nat) (c l : Nat → Bool) :
    build_module_target_android abis c l =
      (abis.all (fun a => c a && l a),
       abis.flatMap
         (fun a => (a, AbiPhase.compile) :: if c a then [(a, AbiPhase.link)] else [])) := by
  unfold build_module_target_android
  rw [build_module_target_android_foldl]
  simp

/-- C7 witness: the amended behaviour evaluated at the concrete two-ABI
list with a failing first compile. -/
theorem build_module_target_android_spec_witness :
    build_module_target_android [0, 1] (fun a => a == 1) (fun _ => true) =
      (false, [(0, AbiPhase.compile), (1, AbiPhase.compile), (1, AbiPhase.link)]) :=
  (build_module_target_android_spec [0, 1] (fun a => a == 1) (fun _ => true)).trans (by decide)

/-! ## C10: Android package-name sanitization -/

/-- C10: for every input string the sanitizer returns either the fixed
fallback `com.djokersoft.game` or a dot-join of at least two non-empty
word-character segments none of which starts with a digit; the packaging
pipeline's copy `_sanitize_android_package` (applied to the requested
package before manifest synthesis, force-stop, install and launch)
computes exactly the same value. -/
theorem sanitize_android_package_name_valid (s : String) :
    ValidAndroidPackage (sanitize_android_package_name s) ∧
    pipeline_sanitize_android_package s = sanitize_android_package_name s := by
  refine ⟨?_, rfl⟩
  simp only [sanitize_android_package_name, ValidAndroidPackage]
  split_ifs with h
  · exact Or.inl rfl
  · refine Or.inr ⟨_, by omega, rfl, ?_⟩
    intro p hp
    obtain ⟨p0, -, hclean⟩ := List.mem_filterMap.mp hp
    exact clean_package_part_spec hclean

/-! ## C6: web shared-link normalization -/

theorem s_append_ne (s : String) (h : 0 < s.length) : "-s" ++ s ≠ "-s" := by
  intro he
  have hlen : ("-s" ++ s).length = ("-s" : String).length := by rw [he]
  rw [String.length_append] at hlen
  simp only [String.length] at h hlen
  omega

theorem web_normalize_ld_sLastOnly_aux :
    ∀ (n : Nat) (ld : List String), ld.length ≤ n → SLastOnly (web_normalize_ld ld) := by
  intro n
  induction n with
  | zero =>
    intro ld hld
    rw [List.length_eq_zero.mp (Nat.le_zero.mp hld)]
    exact trivial
  | succ n ih =>
    intro ld hld
    cases ld with
    | nil => exact trivial
    | cons a rest =>
      cases rest with
      | nil =>
        simp only [web_normalize_ld]
        by_cases hv : py_trim a = "-s"
        · rw [if_pos hv]
          exact ⟨Or.inl rfl, trivial⟩
        · rw [if_neg hv]
          by_cases hl : 1 < (py_trim a).length
          · rw [if_pos hl]
            exact ⟨Or.inr hv, trivial⟩
          · rw [if_neg hl]
            exact trivial
      | cons b rest2 =>
        simp only [web_normalize_ld]
        by_cases hv : py_trim a = "-s"
        · rw [if_pos hv]
          by_cases hs : 0 < (py_trim b).length
          · rw [if_pos hs]
            refine ⟨Or.inr (s_append_ne _ hs), ?_⟩
            exact ih rest2 (by simp at hld ⊢; omega)
          · rw [if_neg hs]
            exact ih rest2 (by simp at hld ⊢; omega)
        · rw [if_neg hv]
          by_cases hl : 1 < (py_trim a).length
          · rw [if_pos hl]
            refine ⟨Or.inr hv, ?_⟩
            exact ih (b :: rest2) (by simp at hld ⊢; omega)
          · rw [if_neg hl]
            exact ih (b :: rest2) (by simp at hld ⊢; omega)

theorem web_normalize_ld_sLastOnly (ld : List String) : SLastOnly (web_normalize_ld ld) :=
  web_normalize_ld_sLastOnly_aux ld.length ld le_rfl

theorem noSplitSettingPair_of_no_s (e : List String) (he : ∀ y ∈ e, y ≠ "-s") :
    NoSplitSettingPair e := by
  induction e with
  | nil => exact trivial
  | cons a rest ih =>
    match rest with
    | [] => exact trivial
    | b :: rest2 =>
      refine ⟨fun ha => absurd ha (he a (by simp)), ?_⟩
      exact ih (fun y hy => he y (List.mem_cons_of_mem a hy))

theorem noSplitSettingPair_append (l e : List String) (hl : SLastOnly l)
    (he : ∀ y ∈ e, y ≠ "-s" ∧ is_setting_token y = false) :
    NoSplitSettingPair (l ++ e) := by
  induction l with
  | nil => exact noSplitSettingPair_of_no_s e (fun y hy => (he y hy).1)
  | cons a rest ih =>
    obtain ⟨ha, hrest⟩ := hl
    have htail : NoSplitSettingPair (rest ++ e) := ih hrest
    rw [List.cons_append]
    cases hre : rest ++ e with
    | nil => exact trivial
    | cons b tail =>
      refine ⟨?_, hre ▸ htail⟩
      intro has
      rcases ha with hnil | hne
      · subst hnil
        simp only [List.nil_append] at hre
        exact (he b (hre ▸ List.mem_cons_self b tail)).2
      · exact absurd has hne

theorem web_shared_link_args_eq (ld : List String) :
    web_shared_link_args ld =
      (web_normalize_ld ld ++
        (if (web_normalize_ld ld).any (fun a => py_startsWith a "-sASYNCIFY") then []
         else ["-sASYNCIFY"])) ++
      (if (web_normalize_ld ld).any (fun a => py_startsWith a "-sEXPORTED_RUNTIME_METHODS=")
       then [] else [exported_runtime_methods_flag]) := rfl

/-- C6: for every link-flag list handed to the non-static web build, the
final argument list never has a standalone `-s` immediately followed by a
NAME=VALUE setting token (two-token `-s NAME=VALUE` pairs are fused into
`-sNAME=VALUE`); it contains a flag with prefix `-sASYNCIFY` and one with
prefix `-sEXPORTED_RUNTIME_METHODS=`; and each of the two is appended
exactly when no flag with that prefix was present after normalization (the
count equations: the final count is the normalized count, raised to one
only when it was zero). -/
theorem web_shared_link_args_spec (ld : List String) :
    NoSplitSettingPair (web_shared_link_args ld) ∧
    (∃ a ∈ web_shared_link_args ld, py_startsWith a "-sASYNCIFY" = true) ∧
    (∃ a ∈ web_shared_link_args ld, py_startsWith a "-sEXPORTED_RUNTIME_METHODS=" = true) ∧
    (web_shared_link_args ld).countP (fun a => py_startsWith a "-sASYNCIFY") =
      max ((web_normalize_ld ld).countP (fun a => py_startsWith a "-sASYNCIFY")) 1 ∧
    (web_shared_link_args ld).countP (fun a => py_startsWith a "-sEXPORTED_RUNTIME_METHODS=") =
      max ((web_normalize_ld ld).countP
        (fun a => py_startsWith a "-sEXPORTED_RUNTIME_METHODS=")) 1 := by
  rw [web_shared_link_args_eq]
  set n := web_normalize_ld ld with hn
  have hLast : SLastOnly n := web_normalize_ld_sLastOnly ld
  by_cases hA : n.any (fun a => py_startsWith a "-sASYNCIFY") = true
  · obtain ⟨a, ha, hpa⟩ := List.any_eq_true.mp hA
    have hcA : 1 ≤ n.countP (fun a => py_startsWith a "-sASYNCIFY") :=
      List.countP_pos_iff.mpr ⟨a, ha, hpa⟩
    by_cases hE : n.any (fun a => py_startsWith a "-sEXPORTED_RUNTIME_METHODS=") = true
    · obtain ⟨b, hb, hpb⟩ := List.any_eq_true.mp hE
      have hcE : 1 ≤ n.countP (fun a => py_startsWith a "-sEXPORTED_RUNTIME_METHODS=") :=
        List.countP_pos_iff.mpr ⟨b, hb, hpb⟩
      rw [if_pos hA, if_pos hE, List.append_nil, List.append_nil]
      have hns : NoSplitSettingPair (n ++ []) :=
        noSplitSettingPair_append n [] hLast (by simp)
      rw [List.append_nil] at hns
      exact ⟨hns, ⟨a, ha, hpa⟩, ⟨b, hb, hpb⟩, by omega, by omega⟩
    · have hE' : n.any (fun a => py_startsWith a "-sEXPORTED_RUNTIME_METHODS=") = false :=
        (Bool.not_eq_true _).mp hE
      have hcE : n.countP (fun a => py_startsWith a "-sEXPORTED_RUNTIME_METHODS=") = 0 :=
        List.countP_eq_zero.mpr (List.any_eq_false.mp hE')
      rw [if_pos hA, if_neg hE, List.append_nil]
      refine ⟨?_, ⟨a, List.mem_append_left _ ha, hpa⟩,
        ⟨exported_runtime_methods_flag, List.mem_append_right _ (by simp), by decide⟩, ?_, ?_⟩
      · exact noSplitSettingPair_append n [exported_runtime_methods_flag] hLast (by decide)
      · rw [List.countP_append]
        have h0 : ([exported_runtime_methods_flag].countP
            (fun a => py_startsWith a "-sASYNCIFY")) = 0 := by decide
        omega
      · rw [List.countP_append]
        have h1 : ([exported_runtime_methods_flag].countP
            (fun a => py_startsWith a "-sEXPORTED_RUNTIME_METHODS=")) = 1 := by decide
        omega
  · have hA' : n.any (fun a => py_startsWith a "-sASYNCIFY") = false :=
      (Bool.not_eq_true _).mp hA
    have hcA : n.countP (fun a => py_startsWith a "-sASYNCIFY") = 0 :=
      List.countP_eq_zero.mpr (List.any_eq_false.mp hA')
    by_cases hE : n.any (fun a => py_startsWith a "-sEXPORTED_RUNTIME_METHODS=") = true
    · obtain ⟨b, hb, hpb⟩ := List.any_eq_true.mp hE
      have hcE : 1 ≤ n.countP (fun a => py_startsWith a "-sEXPORTED_RUNTIME_METHODS=") :=
        List.countP_pos_iff.mpr ⟨b, hb, hpb⟩
      rw [if_neg hA, if_pos hE, List.append_nil]
      refine ⟨?_, ⟨"-sASYNCIFY", List.mem_append_right _ (by simp), by decide⟩,
        ⟨b, List.mem_append_left _ hb, hpb⟩, ?_, ?_⟩
      · exact noSplitSettingPair_append n ["-sASYNCIFY"] hLast (by decide)
      · rw [List.countP_append]
        have h1 : (["-sASYNCIFY"].countP (fun a => py_startsWith a "-sASYNCIFY")) = 1 := by
          decide
        omega
      · rw [List.countP_append]
        have h0 : (["-sASYNCIFY"].countP
            (fun a => py_startsWith a "-sEXPORTED_RUNTIME_METHODS=")) = 0 := by decide
        omega
    · have hE' : n.any (fun a => py_startsWith a "-sEXPORTED_RUNTIME_METHODS=") = false :=
        (Bool.not_eq_true _).mp hE
      have hcE : n.countP (fun a => py_startsWith a "-sEXPORTED_RUNTIME_METHODS=") = 0 :=
        List.countP_eq_zero.mpr (List.any_eq_false.mp hE')
      rw [if_neg hA, if_neg hE, List.append_assoc]
      refine ⟨?_, ⟨"-sASYNCIFY", List.mem_append_right _ (by simp), by decide⟩,
        ⟨exported_runtime_methods_flag, List.mem_append_right _ (by simp), by decide⟩, ?_, ?_⟩
      · exact noSplitSettingPair_append n ["-sASYNCIFY", exported_runtime_methods_flag]
          hLast (by decide)
      · rw [List.countP_append, List.countP_append]
        have h1 : (["-sASYNCIFY"].countP (fun a => py_startsWith a "-sASYNCIFY")) = 1 := by
          decide
        have h0 : ([exported_runtime_methods_flag].countP
            (fun a => py_startsWith a "-sASYNCIFY")) = 0 := by decide
        omega
      · rw [List.countP_append, List.countP_append]
        have h0 : (["-sASYNCIFY"].countP
            (fun a => py_startsWith a "-sEXPORTED_RUNTIME_METHODS=")) = 0 := by decide
        have h1 : ([exported_runtime_methods_flag].countP
            (fun a => py_startsWith a "-sEXPORTED_RUNTIME_METHODS=")) = 1 := by decide
        omega

/-- C6 witness: the guarantee at a concrete flag list containing a split
`-s ASYNCIFY=1` pair and a trailing lone `-s`. -/
theorem web_shared_link_args_spec_witness :
    NoSplitSettingPair (web_shared_link_args ["-s", "ASYNCIFY=1", "-lgame", "-s"]) :=
  (web_shared_link_args_spec ["-s", "ASYNCIFY=1", "-lgame", "-s"]).1

/-! ## C8: manifest preservation -/

/-- C8 counterexample: the demo manifest's package, activity and library
name all match the requested identity, yet a packaging run rewrites it,
because the unconditional icon-fallback pass patches the (missing)
`@mipmap/ic_launcher` reference. -/
theorem manifest_rewritten_despite_identity_match :
    manifest_identity_matches demo_manifest "com.demo.app" "acts.Main" "game" = true ∧
    manifest_step "TPL" "com.demo.app" "Label" "acts.Main" "game" (some demo_manifest)
      true (fun _ _ => false) ≠ demo_manifest := by
  exact ⟨by decide, by decide⟩

/-- C8 (amended): a packaging run leaves an existing manifest whose
package, activity and native-library name match the requested identity
byte-for-byte unmodified *provided* its `android:icon` reference (if any)
resolves — it is absent, a system `@android:` reference, or present in
the resource tree; otherwise the icon-fallback pass still rewrites the
icon attribute even though the identity matches. -/
theorem manifest_preserved_when_identity_matches (tmpl pack label act lib content : String)
    (res_is_dir : Bool) (res_lookup : String → String → Bool)
    (hid : manifest_identity_matches content pack act lib = true)
    (hicon : manifest_icon_safe res_is_dir res_lookup content = true) :
    manifest_step tmpl pack label act lib (some content) res_is_dir res_lookup = content := by
  simp only [manifest_step, manifest_after_identity_check]
  rw [if_pos hid]
  unfold ensure_manifest_icon_fallback
  unfold manifest_icon_safe at hicon
  cases hscan : scan_capture "android:icon=\"" icon_capture_valid content.data with
  | none => rfl
  | some r =>
    rw [hscan] at hicon
    have hic : has_android_resource res_is_dir res_lookup ⟨r.2.1⟩ = true := hicon
    exact if_pos hic

/-- C8 witness: on the already-patched manifest (system fallback icon)
with matching identity, a repeated run is the identity. -/
theorem manifest_preserved_when_identity_matches_witness :
    manifest_step "TPL" "com.demo.app" "Label" "acts.Main" "game"
      (some demo_manifest_sys_icon) true (fun _ _ => false) = demo_manifest_sys_icon :=
  manifest_preserved_when_identity_matches "TPL" "com.demo.app" "Label" "acts.Main"
    "game" demo_manifest_sys_icon true (fun _ _ => false) (by decide) (by decide)

/-! ## C9: packaging with zero class files -/

theorem filter_not_then_filter (l : List String) (p : String → Bool) :
    (l.filter (fun f => !(p f))).filter p = [] := by
  induction l with
  | nil => rfl
  | cons a t ih =>
    by_cases h : p a = true
    · rw [List.filter_cons_of_neg (by simp [h])]
      exact ih
    · rw [List.filter_cons_of_pos (by simp [h]), List.filter_cons_of_neg (by simpa using h)]
      exact ih

/-- C9: when zero `.class` files are discovered, the packaging run
invokes neither d8 nor dx, does not fail, and the archive receives
exactly the `aapt` base entries (manifest and resources), the existing
per-ABI native libraries, and the asset trees — no dex entries (stale
`.dex` files were purged before the decision). -/
theorem android_packaging_skips_dex_without_classes (app_name : String)
    (dx8_path : Option String) (fs : String → Bool) (d8_exit dx_exit : Int)
    (dex_dir_before translated base_entries : List String)
    (lib32_exists lib64_exists : Bool) (asset_tree : String → List String) :
    (android_package_assembly app_name [] dx8_path fs d8_exit dx_exit dex_dir_before
      translated base_entries lib32_exists lib64_exists asset_tree).translator_calls = [] ∧
    (android_package_assembly app_name [] dx8_path fs d8_exit dx_exit dex_dir_before
      translated base_entries lib32_exists lib64_exists asset_tree).dex_failed = false ∧
    (android_package_assembly app_name [] dx8_path fs d8_exit dx_exit dex_dir_before
      translated base_entries lib32_exists lib64_exists asset_tree).entries =
      base_entries ++
        ((if lib32_exists then ["lib/armeabi-v7a/lib" ++ app_name ++ ".so"] else []) ++
          (if lib64_exists then ["lib/arm64-v8a/lib" ++ app_name ++ ".so"] else [])) ++
        asset_roots.flatMap
          (fun hm => (asset_tree hm.1).map (fun rel => hm.2 ++ "/" ++ rel)) := by
  have htr : dex_translation [] dx8_path fs d8_exit dx_exit = ([], true) := by
    unfold dex_translation
    rw [if_pos (by decide)]
  refine ⟨?_, ?_, ?_⟩
  · simp only [android_package_assembly, htr]
  · simp only [android_package_assembly, htr]
    rfl
  · simp only [android_package_assembly, htr, if_pos (by decide : ([] : List String).isEmpty = true),
      List.append_nil]
    rw [filter_not_then_filter]
    simp

/-- C9 witness: the guarantee at a concrete native-only packaging run
with a stale dex file and one present ABI library. -/
theorem android_packaging_skips_dex_without_classes_witness :
    (android_package_assembly "game" [] (some "/sdk/d8") (fun _ => true) 0 0
      ["classes.dex", "notes.txt"] [] ["AndroidManifest.xml", "resources.arsc"]
      true false (fun _ => [])).translator_calls = [] :=
  (android_packaging_skips_dex_without_classes "game" (some "/sdk/d8") (fun _ => true)
    0 0 ["classes.dex", "notes.txt"] [] ["AndroidManifest.xml", "resources.arsc"]
    true false (fun _ => [])).1

/-- C10 witness: the sanitizer output shape at a concrete input. -/
theorem sanitize_android_package_name_valid_witness :
    ValidAndroidPackage (sanitize_android_package_name "com/djokersoft/9game") :=
  (sanitize_android_package_name_valid "com/djokersoft/9game").1

/-! ## Resolver: unfolding equations and basic facts -/

theorem visitManyF_zero (reg : Registry) (stack names : List String) (st : VisitState) :
    visitManyF reg 0 stack names st = st := rfl

theorem visitManyF_nil (reg : Registry) (fuel : Nat) (stack : List String)
    (st : VisitState) : visitManyF reg (fuel + 1) stack [] st = st := rfl

theorem visitManyF_cons (reg : Registry) (fuel : Nat) (stack : List String) (n : String)
    (names : List String) (st : VisitState) :
    visitManyF reg (fuel + 1) stack (n :: names) st =
      visitManyF reg (fuel + 1) stack names
        (visitManyF reg (fuel + 1) stack [n] st) := rfl

theorem visitManyF_step (reg : Registry) (fuel : Nat) (stack : List String) (n : String)
    (st : VisitState) :
    visitManyF reg (fuel + 1) stack [n] st =
      if n ∈ st.visited then st
      else if n ∈ stack then st
      else
        match lookupModule reg n with
        | none => st
        | some m => pushModule n (visitManyF reg fuel (n :: stack) (cleanDepsOf m n) st) :=
  rfl

/-- Case analysis on one visit step: either the step is a no-op because
the name is visited, on the stack or unknown, or it resolves the module
and pushes it after visiting its dependencies. -/
theorem visit_step_cases (reg : Registry) (fuel : Nat) (stack : List String) (n : String)
    (st : VisitState) :
    (visitManyF reg (fuel + 1) stack [n] st = st ∧
      (n ∈ st.visited ∨ n ∈ stack ∨ lookupModule reg n = none)) ∨
    ∃ m, lookupModule reg n = some m ∧ n ∉ st.visited ∧ n ∉ stack ∧
      visitManyF reg (fuel + 1) stack [n] st =
        pushModule n (visitManyF reg fuel (n :: stack) (cleanDepsOf m n) st) := by
  rw [visitManyF_step]
  by_cases h1 : n ∈ st.visited
  · rw [if_pos h1]
    exact Or.inl ⟨rfl, Or.inl h1⟩
  rw [if_neg h1]
  by_cases h2 : n ∈ stack
  · rw [if_pos h2]
    exact Or.inl ⟨rfl, Or.inr (Or.inl h2)⟩
  rw [if_neg h2]
  cases hl : lookupModule reg n with
  | none => exact Or.inl ⟨rfl, Or.inr (Or.inr rfl)⟩
  | some m => exact Or.inr ⟨m, rfl, h1, h2, rfl⟩

theorem lookup_some_mem_keys {reg : Registry} {n : String} {m : ModuleSpec}
    (h : lookupModule reg n = some m) : n ∈ regKeys reg := by
  induction reg with
  | nil => cases h
  | cons p rest ih =>
    obtain ⟨k, v⟩ := p
    simp only [lookupModule, List.lookup] at h
    simp only [regKeys, List.map_cons, List.mem_cons]
    cases hbeq : n == k with
    | true =>
      exact Or.inl (eq_of_beq hbeq)
    | false =>
      rw [hbeq] at h
      exact Or.inr (ih h)

theorem mem_keys_lookup_isSome {reg : Registry} {n : String} (h : n ∈ regKeys reg) :
    ∃ m, lookupModule reg n = some m := by
  induction reg with
  | nil => simp [regKeys] at h
  | cons p rest ih =>
    obtain ⟨k, v⟩ := p
    simp only [regKeys, List.map_cons, List.mem_cons] at h
    by_cases hk : n = k
    · refine ⟨v, ?_⟩
      simp only [lookupModule, List.lookup]
      rw [show (n == k) = true from beq_iff_eq.mpr hk]
    · have hr : n ∈ regKeys rest := by
        rcases h with h | h
        · exact absurd h hk
        · exact h
      obtain ⟨m, hm⟩ := ih hr
      refine ⟨m, ?_⟩
      simp only [lookupModule, List.lookup]
      rw [show (n == k) = false from beq_eq_false_iff_ne.mpr hk]
      exact hm

theorem cleanDeps_mem {m : ModuleSpec} {name d : String} (h : d ∈ cleanDepsOf m name) :
    d ≠ "" ∧ d ≠ name := by
  unfold cleanDepsOf at h
  have := (List.mem_filter.mp h).2
  rw [decide_eq_true_eq] at this
  push_neg at this
  exact this

theorem length_filter_mono {α : Type} (l : List α) (p q : α → Bool)
    (h : ∀ x ∈ l, q x = true → p x = true) :
    (l.filter q).length ≤ (l.filter p).length := by
  induction l with
  | nil => simp
  | cons a rest ih =>
    have ih' := ih (fun x hx => h x (List.mem_cons_of_mem a hx))
    by_cases hq : q a = true
    · rw [List.filter_cons_of_pos hq, List.filter_cons_of_pos (h a (by simp) hq)]
      simpa using ih'
    · rw [List.filter_cons_of_neg (by simpa using hq)]
      by_cases hp : p a = true
      · rw [List.filter_cons_of_pos hp]
        simp only [List.length_cons]
        omega
      · rw [List.filter_cons_of_neg (by simpa using hp)]
        exact ih'

theorem length_filter_lt {α : Type} (l : List α) (p q : α → Bool)
    (h : ∀ x ∈ l, q x = true → p x = true) (a : α) (ha : a ∈ l)
    (hpa : p a = true) (hqa : q a = false) :
    (l.filter q).length < (l.filter p).length := by
  induction l with
  | nil => cases ha
  | cons c rest ih =>
    have hmono := length_filter_mono rest p q (fun x hx => h x (List.mem_cons_of_mem c hx))
    by_cases hca : c = a
    · subst hca
      rw [List.filter_cons_of_pos hpa, List.filter_cons_of_neg (by simp [hqa])]
      simp only [List.length_cons]
      omega
    · have ha' : a ∈ rest := by
        rcases List.mem_cons.mp ha with h | h
        · exact absurd h.symm hca
        · exact h
      have ih' := ih (fun x hx hqx => h x (List.mem_cons_of_mem c hx) hqx) ha'
      by_cases hqc : q c = true
      · rw [List.filter_cons_of_pos hqc, List.filter_cons_of_pos (h c (by simp) hqc)]
        simpa using ih'
      · rw [List.filter_cons_of_neg (by simpa using hqc)]
        by_cases hpc : p c = true
        · rw [List.filter_cons_of_pos hpc]
          simp only [List.length_cons]
          omega
        · rw [List.filter_cons_of_neg (by simpa using hpc)]
          exact ih'

theorem freeKeyCount_cons_lt {reg : Registry} {stack : List String} {n : String}
    (hk : n ∈ regKeys reg) (hs : n ∉ stack) :
    freeKeyCount reg (n :: stack) < freeKeyCount reg stack := by
  unfold freeKeyCount
  refine length_filter_lt (regKeys reg) _ _ ?_ n hk ?_ ?_
  · intro x hx hq
    rw [decide_eq_true_eq] at hq ⊢
    exact fun hmem => hq (List.mem_cons_of_mem n hmem)
  · exact decide_eq_true hs
  · exact decide_eq_false (by simp)

theorem reachK_src_mem {reg : Registry} {a b : String} (h : ReachK reg a b) :
    a ∈ regKeys reg := by
  induction h with
  | refl ha => exact ha
  | tail h e ih => exact ih

theorem reachK_dst_mem {reg : Registry} {a b : String} (h : ReachK reg a b) :
    b ∈ regKeys reg := by
  induction h with
  | refl ha => exact ha
  | tail h e ih => exact e.1

theorem edgeR_to_reach {reg : Registry} {a b : String} (e : edgeR reg a b) :
    ReachK reg a b := by
  obtain ⟨m, hl, -⟩ := e.2
  exact ReachK.tail (ReachK.refl a (lookup_some_mem_keys hl)) e

theorem reachK_trans_front {reg : Registry} {a b x : String} (e : edgeR reg a b)
    (h : ReachK reg b x) : ReachK reg a x := by
  induction h with
  | refl hc => exact edgeR_to_reach e
  | tail h e2 ih => exact ReachK.tail ih e2

/-! ## Resolver: traversal invariants -/

theorem visit_visited_mono (reg : Registry) :
    ∀ (fuel : Nat) (stack names : List String) (st : VisitState) (x : String),
      x ∈ st.visited → x ∈ (visitManyF reg fuel stack names st).visited := by
  intro fuel
  induction fuel with
  | zero =>
    intro stack names st x hx
    rw [visitManyF_zero]
    exact hx
  | succ fuel ihf =>
    intro stack names
    induction names with
    | nil =>
      intro st x hx
      rw [visitManyF_nil]
      exact hx
    | cons n rest ihn =>
      intro st x hx
      rw [visitManyF_cons]
      apply ihn
      rcases visit_step_cases reg fuel stack n st with ⟨heq, -⟩ | ⟨m, hl, hnv, hns, heq⟩
      · rw [heq]
        exact hx
      · rw [heq]
        simp only [pushModule]
        exact List.mem_cons_of_mem n (ihf (n :: stack) (cleanDepsOf m n) st x hx)

theorem visit_order_extend (reg : Registry) :
    ∀ (fuel : Nat) (stack names : List String) (st : VisitState),
      ∃ t, (visitManyF reg fuel stack names st).order = st.order ++ t := by
  intro fuel
  induction fuel with
  | zero =>
    intro stack names st
    exact ⟨[], by rw [visitManyF_zero, List.append_nil]⟩
  | succ fuel ihf =>
    intro stack names
    induction names with
    | nil =>
      intro st
      exact ⟨[], by rw [visitManyF_nil, List.append_nil]⟩
    | cons n rest ihn =>
      intro st
      rw [visitManyF_cons]
      obtain ⟨t2, ht2⟩ := ihn (visitManyF reg (fuel + 1) stack [n] st)
      rcases visit_step_cases reg fuel stack n st with ⟨heq, -⟩ | ⟨m, hl, hnv, hns, heq⟩
      · rw [heq] at ht2 ⊢
        exact ⟨t2, ht2⟩
      · obtain ⟨t1, ht1⟩ := ihf (n :: stack) (cleanDepsOf m n) st
        rw [heq] at ht2 ⊢
        refine ⟨(t1 ++ [n]) ++ t2, ?_⟩
        rw [ht2]
        simp only [pushModule]
        rw [ht1]
        simp [List.append_assoc]

theorem visit_stack_not_added (reg : Registry) :
    ∀ (fuel : Nat) (stack names : List String) (st : VisitState) (x : String),
      x ∈ stack → x ∈ (visitManyF reg fuel stack names st).visited → x ∈ st.visited := by
  intro fuel
  induction fuel with
  | zero =>
    intro stack names st x hstack hx
    rw [visitManyF_zero] at hx
    exact hx
  | succ fuel ihf =>
    intro stack names
    induction names with
    | nil =>
      intro st x hstack hx
      rw [visitManyF_nil] at hx
      exact hx
    | cons n rest ihn =>
      intro st x hstack hx
      rw [visitManyF_cons] at hx
      have hx2 := ihn _ x hstack hx
      rcases visit_step_cases reg fuel stack n st with ⟨heq, -⟩ | ⟨m, hl, hnv, hns, heq⟩
      · rw [heq] at hx2
        exact hx2
      · rw [heq] at hx2
        simp only [pushModule] at hx2
        have hxn : x ≠ n := fun h => hns (h ▸ hstack)
        have hx3 : x ∈ (visitManyF reg fuel (n :: stack) (cleanDepsOf m n) st).visited := by
          rcases List.mem_cons.mp hx2 with h | h
          · exact absurd h hxn
          · exact h
        exact ihf (n :: stack) (cleanDepsOf m n) st x (List.mem_cons_of_mem n hstack) hx3

theorem visit_goodstate (reg : Registry) :
    ∀ (fuel : Nat) (stack names : List String) (st : VisitState),
      GoodState st → GoodState (visitManyF reg fuel stack names st) := by
  intro fuel
  induction fuel with
  | zero =>
    intro stack names st h
    rw [visitManyF_zero]
    exact h
  | succ fuel ihf =>
    intro stack names
    induction names with
    | nil =>
      intro st h
      rw [visitManyF_nil]
      exact h
    | cons n rest ihn =>
      intro st h
      rw [visitManyF_cons]
      apply ihn
      rcases visit_step_cases reg fuel stack n st with ⟨heq, -⟩ | ⟨m, hl, hnv, hns, heq⟩
      · rw [heq]
        exact h
      · rw [heq]
        have hinner : GoodState (visitManyF reg fuel (n :: stack) (cleanDepsOf m n) st) :=
          ihf _ _ st h
        have hnotIn : n ∉ (visitManyF reg fuel (n :: stack) (cleanDepsOf m n) st).visited := by
          intro hmem
          exact hnv (visit_stack_not_added reg fuel (n :: stack) (cleanDepsOf m n) st n
            (List.mem_cons_self n stack) hmem)
        obtain ⟨hnd, hiff⟩ := hinner
        have hnotOrd : n ∉ (visitManyF reg fuel (n :: stack) (cleanDepsOf m n) st).order :=
          fun hm => hnotIn ((hiff n).mpr hm)
        refine ⟨?_, ?_⟩
        · simp only [pushModule]
          rw [List.nodup_append]
          refine ⟨hnd, List.nodup_singleton n, ?_⟩
          intro x hx hx'
          rw [List.mem_singleton.mp hx'] at hx
          exact hnotOrd hx
        · intro x
          simp only [pushModule]
          rw [List.mem_cons, List.mem_append, List.mem_singleton]
          constructor
          · rintro (rfl | hx)
            · exact Or.inr rfl
            · exact Or.inl ((hiff x).mp hx)
          · rintro (hx | rfl)
            · exact Or.inr ((hiff x).mpr hx)
            · exact Or.inl rfl

theorem visit_sound (reg : Registry) :
    ∀ (fuel : Nat) (stack names : List String) (st : VisitState) (x : String),
      x ∈ (visitManyF reg fuel stack names st).visited →
      x ∈ st.visited ∨ ∃ n ∈ names, ReachK reg n x := by
  intro fuel
  induction fuel with
  | zero =>
    intro stack names st x hx
    rw [visitManyF_zero] at hx
    exact Or.inl hx
  | succ fuel ihf =>
    intro stack names
    induction names with
    | nil =>
      intro st x hx
      rw [visitManyF_nil] at hx
      exact Or.inl hx
    | cons n rest ihn =>
      intro st x hx
      rw [visitManyF_cons] at hx
      rcases ihn _ x hx with hstep | ⟨n2, hn2, hr⟩
      · rcases visit_step_cases reg fuel stack n st with ⟨heq, -⟩ | ⟨m, hl, hnv, hns, heq⟩
        · rw [heq] at hstep
          exact Or.inl hstep
        · rw [heq] at hstep
          simp only [pushModule] at hstep
          rcases List.mem_cons.mp hstep with rfl | hx2
          · exact Or.inr ⟨x, List.mem_cons_self x rest,
              ReachK.refl x (lookup_some_mem_keys hl)⟩
          · rcases ihf (n :: stack) (cleanDepsOf m n) st x hx2 with h | ⟨d, hd, hr⟩
            · exact Or.inl h
            · have hdk : d ∈ regKeys reg := reachK_src_mem hr
              have hedge : edgeR reg n d := ⟨hdk, m, hl, hd⟩
              exact Or.inr ⟨n, List.mem_cons_self n rest, reachK_trans_front hedge hr⟩
      · exact Or.inr ⟨n2, List.mem_cons_of_mem n hn2, hr⟩

theorem visit_processed (reg : Registry) :
    ∀ (fuel : Nat) (stack names : List String) (st : VisitState), 0 < fuel →
      ∀ n ∈ names, n ∈ (visitManyF reg fuel stack names st).visited ∨ n ∈ stack ∨
        lookupModule reg n = none := by
  intro fuel stack names st hfuel
  obtain ⟨f, rfl⟩ : ∃ f, fuel = f + 1 := ⟨fuel - 1, by omega⟩
  clear hfuel
  induction names generalizing st with
  | nil =>
    intro n hn
    cases hn
  | cons d rest ihn =>
    intro n hn
    rw [visitManyF_cons]
    rcases List.mem_cons.mp hn with rfl | hn2
    · rcases visit_step_cases reg f stack n st with ⟨heq, hwhy⟩ | ⟨m, hl, hnv, hns, heq⟩
      · rcases hwhy with hv | hs | hnone
        · left
          apply visit_visited_mono
          rw [heq]
          exact hv
        · exact Or.inr (Or.inl hs)
        · exact Or.inr (Or.inr hnone)
      · left
        apply visit_visited_mono
        rw [heq]
        simp only [pushModule]
        exact List.mem_cons_self n _
    · exact ihn _ n hn2

theorem visit_inv (reg : Registry) :
    ∀ (fuel : Nat) (stack names : List String) (st : VisitState),
      freeKeyCount reg stack < fuel → InvBlack reg st stack →
      InvBlack reg (visitManyF reg fuel stack names st) stack := by
  intro fuel
  induction fuel with
  | zero =>
    intro stack names st hf hinv
    exact absurd hf (Nat.not_lt_zero _)
  | succ fuel ihf =>
    intro stack names
    induction names with
    | nil =>
      intro st hf hinv
      rw [visitManyF_nil]
      exact hinv
    | cons n rest ihn =>
      intro st hf hinv
      rw [visitManyF_cons]
      apply ihn _ hf
      rcases visit_step_cases reg fuel stack n st with ⟨heq, -⟩ | ⟨m, hl, hnv, hns, heq⟩
      · rw [heq]
        exact hinv
      · rw [heq]
        have hkey : n ∈ regKeys reg := lookup_some_mem_keys hl
        have hflt : freeKeyCount reg (n :: stack) < fuel := by
          have := freeKeyCount_cons_lt hkey hns
          omega
        have hinner : InvBlack reg
            (visitManyF reg fuel (n :: stack) (cleanDepsOf m n) st) (n :: stack) :=
          ihf (n :: stack) (cleanDepsOf m n) st hflt
            (fun v hv x he => (hinv v hv x he).imp id (List.mem_cons_of_mem n))
        have hproc := visit_processed reg fuel (n :: stack) (cleanDepsOf m n) st (by omega)
        intro v hv x hedge
        simp only [pushModule] at hv
        rcases List.mem_cons.mp hv with rfl | hvi
        · obtain ⟨hxk, m2, hl2, hxdeps⟩ := hedge
          rw [hl] at hl2
          obtain rfl : m = m2 := Option.some.inj hl2
          rcases hproc x hxdeps with hx1 | hx2 | hx3
          · left
            simp only [pushModule]
            exact List.mem_cons_of_mem v hx1
          · rcases List.mem_cons.mp hx2 with rfl | hx2b
            · left
              simp only [pushModule]
              exact List.mem_cons_self x _
            · exact Or.inr hx2b
          · obtain ⟨mm, hmm⟩ := mem_keys_lookup_isSome hxk
            rw [hmm] at hx3
            cases hx3
        · rcases hinner v hvi x hedge with hx1 | hx2
          · left
            simp only [pushModule]
            exact List.mem_cons_of_mem n hx1
          · rcases List.mem_cons.mp hx2 with rfl | hx2b
            · left
              simp only [pushModule]
              exact List.mem_cons_self x _
            · exact Or.inr hx2b

theorem visit_stack_reach (reg : Registry) :
    ∀ (fuel : Nat) (stack names : List String) (st : VisitState),
      (∀ s ∈ stack, ∀ n ∈ names, n ∈ regKeys reg → ReachK reg s n) →
      ∀ x, x ∈ (visitManyF reg fuel stack names st).visited →
        x ∈ st.visited ∨ ∀ s ∈ stack, ReachK reg s x := by
  intro fuel
  induction fuel with
  | zero =>
    intro stack names st hyp x hx
    rw [visitManyF_zero] at hx
    exact Or.inl hx
  | succ fuel ihf =>
    intro stack names
    induction names with
    | nil =>
      intro st hyp x hx
      rw [visitManyF_nil] at hx
      exact Or.inl hx
    | cons n rest ihn =>
      intro st hyp x hx
      rw [visitManyF_cons] at hx
      have hyp_rest : ∀ s ∈ stack, ∀ n2 ∈ rest, n2 ∈ regKeys reg → ReachK reg s n2 :=
        fun s hs n2 hn2 => hyp s hs n2 (List.mem_cons_of_mem n hn2)
      rcases ihn _ hyp_rest x hx with hstep | hreach
      · rcases visit_step_cases reg fuel stack n st with ⟨heq, -⟩ | ⟨m, hl, hnv, hns, heq⟩
        · rw [heq] at hstep
          exact Or.inl hstep
        · rw [heq] at hstep
          simp only [pushModule] at hstep
          have hnk : n ∈ regKeys reg := lookup_some_mem_keys hl
          rcases List.mem_cons.mp hstep with rfl | hx2
          · exact Or.inr (fun s hs => hyp s hs x (List.mem_cons_self x rest) hnk)
          · have hyp_inner : ∀ s ∈ n :: stack, ∀ d ∈ cleanDepsOf m n,
                d ∈ regKeys reg → ReachK reg s d := by
              intro s hs d hd hdk
              have hedge : edgeR reg n d := ⟨hdk, m, hl, hd⟩
              rcases List.mem_cons.mp hs with rfl | hs2
              · exact edgeR_to_reach hedge
              · exact ReachK.tail (hyp s hs2 n (List.mem_cons_self n rest) hnk) hedge
            rcases ihf (n :: stack) (cleanDepsOf m n) st hyp_inner x hx2 with h | hreach2
            · exact Or.inl h
            · exact Or.inr (fun s hs => hreach2 s (List.mem_cons_of_mem n hs))
      · exact Or.inr hreach

theorem visit_depord (reg : Registry) :
    ∀ (fuel : Nat) (stack names : List String) (st : VisitState),
      freeKeyCount reg stack < fuel →
      (∀ s ∈ stack, ∀ n ∈ names, n ∈ regKeys reg → ReachK reg s n) →
      GoodState st → InvBlack reg st stack → DepOrd reg st →
      DepOrd reg (visitManyF reg fuel stack names st) := by
  intro fuel
  induction fuel with
  | zero =>
    intro stack names st hf hyp hgood hinv hdep
    exact absurd hf (Nat.not_lt_zero _)
  | succ fuel ihf =>
    intro stack names
    induction names with
    | nil =>
      intro st hf hyp hgood hinv hdep
      rw [visitManyF_nil]
      exact hdep
    | cons n rest ihn =>
      intro st hf hyp hgood hinv hdep
      rw [visitManyF_cons]
      have hyp_rest : ∀ s ∈ stack, ∀ n2 ∈ rest, n2 ∈ regKeys reg → ReachK reg s n2 :=
        fun s hs n2 hn2 => hyp s hs n2 (List.mem_cons_of_mem n hn2)
      have hgood_step : GoodState (visitManyF reg (fuel + 1) stack [n] st) :=
        visit_goodstate reg (fuel + 1) stack [n] st hgood
      have hinv_step : InvBlack reg (visitManyF reg (fuel + 1) stack [n] st) stack :=
        visit_inv reg (fuel + 1) stack [n] st hf hinv
      have hdep_step : DepOrd reg (visitManyF reg (fuel + 1) stack [n] st) := by
        rcases visit_step_cases reg fuel stack n st with ⟨heq, -⟩ | ⟨m, hl, hnv, hns, heq⟩
        · rw [heq]
          exact hdep
        · rw [heq]
          have hnk : n ∈ regKeys reg := lookup_some_mem_keys hl
          have hflt : freeKeyCount reg (n :: stack) < fuel := by
            have := freeKeyCount_cons_lt hnk hns
            omega
          have hyp_inner : ∀ s ∈ n :: stack, ∀ d ∈ cleanDepsOf m n,
              d ∈ regKeys reg → ReachK reg s d := by
            intro s hs d hd hdk
            have hedge : edgeR reg n d := ⟨hdk, m, hl, hd⟩
            rcases List.mem_cons.mp hs with rfl | hs2
            · exact edgeR_to_reach hedge
            · exact ReachK.tail (hyp s hs2 n (List.mem_cons_self n rest) hnk) hedge
          have hinv_weak : InvBlack reg st (n :: stack) :=
            fun v hv x he => (hinv v hv x he).imp id (List.mem_cons_of_mem n)
          have hgood_inner : GoodState
              (visitManyF reg fuel (n :: stack) (cleanDepsOf m n) st) :=
            visit_goodstate reg fuel (n :: stack) (cleanDepsOf m n) st hgood
          have hdep_inner : DepOrd reg
              (visitManyF reg fuel (n :: stack) (cleanDepsOf m n) st) :=
            ihf (n :: stack) (cleanDepsOf m n) st hflt hyp_inner hgood hinv_weak hdep
          have hstack_reach := visit_stack_reach reg fuel (n :: stack)
            (cleanDepsOf m n) st hyp_inner
          have hn_not_vis : n ∉
              (visitManyF reg fuel (n :: stack) (cleanDepsOf m n) st).visited :=
            fun hmem => hnv (visit_stack_not_added reg fuel (n :: stack)
              (cleanDepsOf m n) st n (List.mem_cons_self n stack) hmem)
          intro mm hmm d hedge hnreach hd
          simp only [pushModule] at hmm hd ⊢
          rcases List.mem_append.mp hmm with hmm_in | hmm_n
          · rcases List.mem_append.mp hd with hd_in | hd_n
            · obtain ⟨p, q, hpq, hdp, hmq⟩ := hdep_inner mm hmm_in d hedge hnreach hd_in
              exact ⟨p, q ++ [n], by rw [hpq, List.append_assoc],
                hdp, List.mem_append_left _ hmq⟩
            · have hd_eq : d = n := List.mem_singleton.mp hd_n
              subst hd_eq
              have hmm_vis : mm ∈
                  (visitManyF reg fuel (d :: stack) (cleanDepsOf m d) st).visited :=
                (hgood_inner.2 mm).mpr hmm_in
              rcases hstack_reach mm hmm_vis with hmm_st | hreach_all
              · rcases hinv mm hmm_st d hedge with h | h
                · exact absurd h hnv
                · exact absurd h hns
              · exact absurd (hreach_all d (List.mem_cons_self d stack)) hnreach
          · have hmm_eq : mm = n := List.mem_singleton.mp hmm_n
            subst hmm_eq
            rcases List.mem_append.mp hd with hd_in | hd_n
            · exact ⟨(visitManyF reg fuel (mm :: stack) (cleanDepsOf m mm) st).order,
                [mm], rfl, hd_in, List.mem_singleton_self mm⟩
            · have hd_eq : d = mm := List.mem_singleton.mp hd_n
              subst hd_eq
              obtain ⟨-, m2, hl2, hdeps⟩ := hedge
              rw [hl] at hl2
              obtain rfl : m = m2 := Option.some.inj hl2
              exact absurd rfl (cleanDeps_mem hdeps).2
      exact ihn _ hf hyp_rest hgood_step hinv_step hdep_step

/-! ## Resolver: assembled results (C1, C2) -/

theorem orderSplit_indexOf {l : List String} {d m : String} (hnd : l.Nodup)
    (hs : OrderSplit l d m) : l.indexOf d < l.indexOf m := by
  obtain ⟨p, q, rfl, hdp, hmq⟩ := hs
  induction p with
  | nil => cases hdp
  | cons a p ih =>
    rw [List.cons_append] at hnd ⊢
    obtain ⟨hna, hnd'⟩ := List.nodup_cons.mp hnd
    have hmne : m ≠ a := by
      intro h
      exact hna (h ▸ List.mem_append_right p hmq)
    by_cases hda : d = a
    · subst hda
      rw [List.indexOf_cons_self]
      rw [List.indexOf_cons_ne _ (by exact fun h => hmne h.symm)]
      omega
    · have hdp' : d ∈ p := by
        rcases List.mem_cons.mp hdp with h | h
        · exact absurd h hda
        · exact h
      have hlt := ih hnd' hdp'
      rw [List.indexOf_cons_ne _ (by exact fun h => hda h.symm),
        List.indexOf_cons_ne _ (by exact fun h => hmne h.symm)]
      omega

theorem invBlack_closure {reg : Registry} {st : VisitState} (hinv : InvBlack reg st [])
    {a x : String} (ha : a ∈ st.visited) (hr : ReachK reg a x) : x ∈ st.visited := by
  induction hr with
  | refl h => exact ha
  | tail h e ih =>
    rcases hinv _ ih _ e with h2 | h2
    · exact h2
    · exact absurd h2 (List.not_mem_nil _)

theorem topo_fuel (reg : Registry) : freeKeyCount reg [] < reg.length + 1 := by
  unfold freeKeyCount
  have h1 := List.length_filter_le (fun k => decide (k ∉ ([] : List String))) (regKeys reg)
  have h2 : (regKeys reg).length = reg.length := by simp [regKeys]
  omega

theorem init_goodstate : GoodState ⟨[], []⟩ :=
  ⟨List.nodup_nil, fun x => by simp⟩

theorem init_invBlack (reg : Registry) (stack : List String) :
    InvBlack reg ⟨[], []⟩ stack :=
  fun v hv => absurd hv (List.not_mem_nil v)

theorem init_depOrd (reg : Registry) : DepOrd reg ⟨[], []⟩ :=
  fun mm hmm => absurd hmm (List.not_mem_nil mm)

theorem topological_modules_nodup (start : String) (reg : Registry) :
    (topological_modules start reg).Nodup :=
  (visit_goodstate reg (reg.length + 1) [] [start] ⟨[], []⟩ init_goodstate).1

theorem topological_modules_mem_iff (start : String) (reg : Registry) (x : String) :
    x ∈ topological_modules start reg ↔ ReachK reg start x := by
  have hgood := visit_goodstate reg (reg.length + 1) [] [start] ⟨[], []⟩ init_goodstate
  constructor
  · intro hx
    have hvis : x ∈ (visitManyF reg (reg.length + 1) [] [start] ⟨[], []⟩).visited :=
      (hgood.2 x).mpr hx
    rcases visit_sound reg (reg.length + 1) [] [start] ⟨[], []⟩ x hvis with h | ⟨n, hn, hr⟩
    · exact absurd h (List.not_mem_nil x)
    · have hn2 : n = start := List.mem_singleton.mp hn
      exact hn2 ▸ hr
  · intro hr
    have hstart_keys : start ∈ regKeys reg := reachK_src_mem hr
    obtain ⟨m, hm⟩ := mem_keys_lookup_isSome hstart_keys
    have hproc := visit_processed reg (reg.length + 1) [] [start] ⟨[], []⟩ (by omega)
      start (List.mem_singleton_self start)
    have hstart_vis : start ∈
        (visitManyF reg (reg.length + 1) [] [start] ⟨[], []⟩).visited := by
      rcases hproc with h | h | h
      · exact h
      · exact absurd h (List.not_mem_nil start)
      · rw [hm] at h
        cases h
    have hinv := visit_inv reg (reg.length + 1) [] [start] ⟨[], []⟩ (topo_fuel reg)
      (init_invBlack reg [])
    exact (hgood.2 x).mp (invBlack_closure hinv hstart_vis hr)

theorem topological_modules_dep_order (start : String) (reg : Registry) :
    ∀ m d, edgeR reg m d → ¬ ReachK reg d m →
      m ∈ topological_modules start reg → d ∈ topological_modules start reg →
      (topological_modules start reg).indexOf d <
        (topological_modules start reg).indexOf m := by
  intro m d hedge hnr hm hd
  have hdep := visit_depord reg (reg.length + 1) [] [start] ⟨[], []⟩ (topo_fuel reg)
    (fun s hs => absurd hs (List.not_mem_nil s)) init_goodstate
    (init_invBlack reg []) (init_depOrd reg)
  exact orderSplit_indexOf (topological_modules_nodup start reg) (hdep m hm d hedge hnr hd)

/-- C1 counterexample: in the two-module cycle (`A` depends on `B`, `B`
depends on `A`), the resolved order is `[B, A]`: `A` is a resolvable
dependency of `B` and is in the order, yet `B` does not appear strictly
after `A` — the claim's ordering clause fails once a cycle edge was
dropped. -/
theorem topological_modules_cycle_not_after_dep :
    edgeR regAB "B" "A" ∧
    "A" ∈ topological_modules "A" regAB ∧
    "B" ∈ topological_modules "A" regAB ∧
    ¬ ((topological_modules "A" regAB).indexOf "A" <
        (topological_modules "A" regAB).indexOf "B") := by
  refine ⟨⟨by decide, specB_cyc, by decide, by decide⟩, by decide, by decide, by decide⟩

/-- C1 (amended): for every registry and start module, the resolver
output has no duplicates and contains exactly the modules reachable from
the start through resolvable `depends` edges; and every module in the
order appears strictly after each of its resolvable dependencies in the
order *from which the module is not itself reachable* — on a dependency
cycle the back edge is dropped and the dependency may appear later. -/
theorem topological_modules_order_correct (reg : Registry) (start : String) :
    (topological_modules start reg).Nodup ∧
    (∀ x, x ∈ topological_modules start reg ↔ ReachK reg start x) ∧
    (∀ m d, edgeR reg m d → ¬ ReachK reg d m →
      m ∈ topological_modules start reg → d ∈ topological_modules start reg →
      (topological_modules start reg).indexOf d <
        (topological_modules start reg).indexOf m) :=
  ⟨topological_modules_nodup start reg, topological_modules_mem_iff start reg,
    topological_modules_dep_order start reg⟩

theorem reach_from_B_chain : ∀ x, ReachK regChain "B" x → x = "B" := by
  intro x h
  induction h with
  | refl h => rfl
  | tail h e ih =>
    rw [ih] at e
    obtain ⟨-, m2, hl2, hdeps⟩ := e
    have hlook : lookupModule regChain "B" = some specB_chain := by decide
    rw [hlook] at hl2
    obtain rfl : specB_chain = m2 := Option.some.inj hl2
    have hempty : cleanDepsOf specB_chain "B" = [] := by decide
    rw [hempty] at hdeps
    cases hdeps

/-- C1 witness: on the acyclic chain (`A` depends on `B`), the amended
theorem instantiated at concrete modules puts `B` strictly before `A`. -/
theorem topological_modules_order_correct_witness :
    (topological_modules "A" regChain).indexOf "B" <
      (topological_modules "A" regChain).indexOf "A" := by
  have hnr : ¬ ReachK regChain "B" "A" := by
    intro h
    have := reach_from_B_chain "A" h
    exact absurd this (by decide)
  exact (topological_modules_order_correct regChain "A").2.2 "A" "B"
    ⟨by decide, specA_chain, by decide, by decide⟩ hnr (by decide) (by decide)

/-- C2: the resolver tolerates dependency cycles.  On the two-module
cycle `A` depends on `B` depends on `A`, the traversal terminates (the
embedding is a total function whose fuel bound is never reached) and
returns an order containing `A` and `B` exactly once; in general the
returned order of any registry is duplicate-free. -/
theorem topological_modules_cycle_terminates :
    (topological_modules "A" regAB).count "A" = 1 ∧
    (topological_modules "A" regAB).count "B" = 1 ∧
    ∀ (reg : Registry) (start : String), (topological_modules start reg).Nodup :=
  ⟨by decide, by decide, fun reg start => topological_modules_nodup start reg⟩

/-! ## C5: flag composition -/

theorem append_unique_nodup {l : List String} (h : l.Nodup) (v : String) :
    (append_unique l v).Nodup := by
  unfold append_unique
  split_ifs with hc
  · exact List.Nodup.append h (List.nodup_singleton v) (by
      intro x hx hx'
      rw [List.mem_singleton.mp hx'] at hx
      exact hc.2 hx)
  · exact h

theorem foldl_append_unique_nodup (vs : List String) {l : List String} (h : l.Nodup) :
    (vs.foldl append_unique l).Nodup := by
  induction vs generalizing l with
  | nil => exact h
  | cons v vs ih => exact ih (append_unique_nodup h v)

theorem append_unique_mem_of_mem {l : List String} {x : String} (h : x ∈ l) (v : String) :
    x ∈ append_unique l v := by
  unfold append_unique
  split_ifs with hc
  · exact List.mem_append_left _ h
  · exact h

theorem append_unique_mem_self {v : String} (hv : v ≠ "") (l : List String) :
    v ∈ append_unique l v := by
  unfold append_unique
  split_ifs with hc
  · exact List.mem_append_right _ (List.mem_singleton_self v)
  · rcases not_and_or.mp hc with h | h
    · exact absurd hv (by simpa using h)
    · simpa using h

theorem append_unique_eq_of_mem {l : List String} {v : String} (h : v ∈ l) :
    append_unique l v = l := by
  unfold append_unique
  rw [if_neg]
  intro hc
  exact hc.2 h

theorem dash_I_ne_empty (p : String) : ("-I" ++ p) ≠ "" := by
  intro h
  have hlen := congrArg String.length h
  rw [String.length_append] at hlen
  have h2 : ("-I" : String).length = 2 := by decide
  have h0 : ("" : String).length = 0 := by decide
  omega

theorem add_module_include_flags_nodup (m : ModuleSpec) (b : PlatformBlock)
    (target : String) {cc cpp : List String} (hcc : cc.Nodup) (hcpp : cpp.Nodup) :
    (add_module_include_flags m b target cc cpp).1.Nodup ∧
    (add_module_include_flags m b target cc cpp).2.Nodup := by
  unfold add_module_include_flags
  generalize include_candidates m b target = cands
  induction cands generalizing cc cpp with
  | nil => exact ⟨hcc, hcpp⟩
  | cons p rest ih =>
    rw [List.foldl_cons]
    exact ih (append_unique_nodup hcc _) (append_unique_nodup hcpp _)

theorem add_module_include_flags_mem (m : ModuleSpec) (b : PlatformBlock)
    (target : String) (cc cpp : List String) :
    (∀ x ∈ cc, x ∈ (add_module_include_flags m b target cc cpp).1) ∧
    (∀ x ∈ cpp, x ∈ (add_module_include_flags m b target cc cpp).2) ∧
    ∀ p ∈ include_candidates m b target,
      ("-I" ++ p) ∈ (add_module_include_flags m b target cc cpp).1 ∧
      ("-I" ++ p) ∈ (add_module_include_flags m b target cc cpp).2 := by
  unfold add_module_include_flags
  generalize include_candidates m b target = cands
  induction cands generalizing cc cpp with
  | nil => exact ⟨fun x hx => hx, fun x hx => hx, by simp⟩
  | cons p rest ih =>
    rw [List.foldl_cons]
    obtain ⟨ih1, ih2, ih3⟩ := ih (append_unique cc ("-I" ++ p)) (append_unique cpp ("-I" ++ p))
    refine ⟨?_, ?_, ?_⟩
    · exact fun x hx => ih1 x (append_unique_mem_of_mem hx _)
    · exact fun x hx => ih2 x (append_unique_mem_of_mem hx _)
    · intro q hq
      rcases List.mem_cons.mp hq with rfl | hq
      · exact ⟨ih1 _ (append_unique_mem_self (dash_I_ne_empty q) cc),
               ih2 _ (append_unique_mem_self (dash_I_ne_empty q) cpp)⟩
      · exact ih3 q hq

theorem add_module_include_flags_idem (m : ModuleSpec) (b : PlatformBlock)
    (target : String) (cc cpp : List String) :
    add_module_include_flags m b target
        (add_module_include_flags m b target cc cpp).1
        (add_module_include_flags m b target cc cpp).2 =
      add_module_include_flags m b target cc cpp := by
  obtain ⟨-, -, hmem⟩ := add_module_include_flags_mem m b target cc cpp
  conv_lhs => rw [add_module_include_flags]
  set r := add_module_include_flags m b target cc cpp with hr
  have : ∀ (cands : List String),
      (∀ p ∈ cands, ("-I" ++ p) ∈ r.1 ∧ ("-I" ++ p) ∈ r.2) →
      cands.foldl
        (fun acc p => (append_unique acc.1 ("-I" ++ p), append_unique acc.2 ("-I" ++ p)))
        (r.1, r.2) = (r.1, r.2) := by
    intro cands hcands
    induction cands with
    | nil => rfl
    | cons p rest ih =>
      rw [List.foldl_cons, append_unique_eq_of_mem (hcands p (by simp)).1,
        append_unique_eq_of_mem (hcands p (by simp)).2]
      exact ih (fun q hq => hcands q (List.mem_cons_of_mem p hq))
  rw [this (include_candidates m b target) hmem]

theorem collect_module_dep_foldl_nodup (m : ModuleSpec) (target : String) (abi : Nat)
    (reg : Registry) (fs : String → Bool) (deps : List String) :
    ∀ (cc cpp ld : List String), cc.Nodup → cpp.Nodup →
    (deps.foldl
      (fun (st : List String × List String × List String) dep_name =>
        let name := py_trim dep_name
        if name = "" ∨ name = m.name then st
        else
          match lookupModule reg name with
          | none => st
          | some dep =>
            let dep_block := module_platform_block dep target
            let ccp2 := add_module_include_flags dep dep_block target st.1 st.2.1
            (ccp2.1, ccp2.2, add_module_link_flags dep dep_block target abi fs st.2.2))
      (cc, cpp, ld)).1.Nodup ∧
    (deps.foldl
      (fun (st : List String × List String × List String) dep_name =>
        let name := py_trim dep_name
        if name = "" ∨ name = m.name then st
        else
          match lookupModule reg name with
          | none => st
          | some dep =>
            let dep_block := module_platform_block dep target
            let ccp2 := add_module_include_flags dep dep_block target st.1 st.2.1
            (ccp2.1, ccp2.2, add_module_link_flags dep dep_block target abi fs st.2.2))
      (cc, cpp, ld)).2.1.Nodup := by
  induction deps with
  | nil =>
    intro cc cpp ld hcc hcpp
    exact ⟨hcc, hcpp⟩
  | cons d rest ih =>
    intro cc cpp ld hcc hcpp
    rw [List.foldl_cons]
    by_cases hguard : py_trim d = "" ∨ py_trim d = m.name
    · simp only [hguard, if_true]
      exact ih cc cpp ld hcc hcpp
    · cases hlook : lookupModule reg (py_trim d) with
      | none =>
        simp only [hguard, if_false, hlook]
        exact ih cc cpp ld hcc hcpp
      | some dep =>
        simp only [hguard, if_false, hlook]
        have h2 := add_module_include_flags_nodup dep (module_platform_block dep target)
          target hcc hcpp
        exact ih _ _ _ h2.1 h2.2

/-- C5 counterexample: the claim's duplicate-freeness fails for the link
list.  Module `M` depends on `D` whose `LD_ARGS` repeats `-lX`; the
composed link list is `[-L/d/Linux, -lX, -lX]`.  Re-applying
`add_module_link_flags` to its own output also grows it (3 to 5
entries), so link composition is not idempotent either. -/
theorem collect_module_build_flags_ld_duplicates :
    ¬ (collect_module_build_flags specM "desktop" 0 regMD (fun _ => false)).2.2.Nodup ∧
    (add_module_link_flags specD empty_platform_block "desktop" 0 (fun _ => false)
        []).length = 3 ∧
    (add_module_link_flags specD empty_platform_block "desktop" 0 (fun _ => false)
        (add_module_link_flags specD empty_platform_block "desktop" 0 (fun _ => false)
          [])).length = 5 := by
  exact ⟨by decide, by decide, by decide⟩

/-- C5 (amended): flag composition always returns duplicate-free C and C++
compile-flag lists (every compile flag passes through `append_unique`),
and include-flag composition is idempotent; the *link* list is built with
plain appends for dependency flags and may repeat entries, so only the
compile lists carry the duplicate-free guarantee. -/
theorem collect_module_build_flags_spec (m : ModuleSpec) (target : String) (abi : Nat)
    (reg : Registry) (fs : String → Bool) :
    (collect_module_build_flags m target abi reg fs).1.Nodup ∧
    (collect_module_build_flags m target abi reg fs).2.1.Nodup ∧
    ∀ (b : PlatformBlock) (cc cpp : List String),
      add_module_include_flags m b target
          (add_module_include_flags m b target cc cpp).1
          (add_module_include_flags m b target cc cpp).2 =
        add_module_include_flags m b target cc cpp := by
  refine ⟨?_, ?_, fun b cc cpp => add_module_include_flags_idem m b target cc cpp⟩
  all_goals
    unfold collect_module_build_flags
    have h0 := add_module_include_flags_nodup m (module_platform_block m target) target
      (List.nodup_nil) (List.nodup_nil)
    have hcc1 := foldl_append_unique_nodup m.main_cc_args h0.1
    have hcc2 := foldl_append_unique_nodup (module_platform_block m target).cc_args hcc1
    have hcpp1 := foldl_append_unique_nodup m.main_cpp_args h0.2
    have hcpp2 := foldl_append_unique_nodup (module_platform_block m target).cpp_args hcpp1
    have hfold := collect_module_dep_foldl_nodup m target abi reg fs m.depends
      _ _ ([] : List String) hcc2 hcpp2
  · exact hfold.1
  · exact hfold.2

/-- C5 witness: the compile lists of the concrete composition are
duplicate-free. -/
theorem collect_module_build_flags_spec_witness :
    (collect_module_build_flags specM "desktop" 0 regMD (fun _ => false)).1.Nodup :=
  (collect_module_build_flags_spec specM "desktop" 0 regMD (fun _ => false)).1

end Crosside
